import Mathlib

/-!
Verification of the llm-mindmap repository's mind-map pipeline.

This file shallowly embeds, in Lean 4, the parts of the repository that the
checked properties are about:

* `src/llm_mindmap/mindmap/mindmap.py` — the `MindMap` dataclass, its
  serializer `_to_dict`, the builder `MindMap.from_dict`, and the module-level
  `dict_keys_to_lowercase`;
* `src/llm_mindmap/mindmap/mindmap_generator.py` — the normalization pipeline
  at the start of `_parse_llm_to_themetree`, the nested
  `dict_keys_to_lowercase` (which, unlike the one in `mindmap.py`, recurses
  into lists), and the nested structural validator `validate_node`;
* `src/src/llm/utils.py` — the batch runners `run_parallel_prompts` and
  `run_concurrent_prompts` with their per-task `fetch` retry loops.

Python dictionaries are modelled as insertion-ordered association lists with
Python's assignment semantics (update in place if the key exists, else
append).  Python exceptions are modelled with `Option`/`Except`.  Machine
integers do not occur on the modelled paths.  String operations are modelled
on the underlying character lists; `str.lower` and `\s` are modelled on their
ASCII fragment, which is the fragment the repository's fixed key names and
fence markers exercise.
-/

/-- A JSON-like Python value, covering the shapes the pipeline manipulates:
strings, ints, `None`, lists and dicts (insertion-ordered association lists). -/
inductive JValue where
  | str (s : String)
  | int (n : Int)
  | null
  | arr (xs : List JValue)
  | obj (kvs : List (String × JValue))

/-- Python `str.lower()` on its ASCII fragment, character by character. -/
def pyLower (s : String) : String := ⟨s.data.map Char.toLower⟩

/-- Python dict assignment `d[k] = v`: update the value in place if the key is
present, otherwise append the binding at the end. -/
def pyDictSet (kvs : List (String × JValue)) (k : String) (v : JValue) :
    List (String × JValue) :=
  match kvs with
  | [] => [(k, v)]
  | (k', v') :: rest =>
    if k' = k then (k, v) :: rest else (k', v') :: pyDictSet rest k v

/-- Building a Python dict by assigning a sequence of bindings in order, the
semantics of a dict comprehension or of a loop of `d[k] = v` assignments. -/
def pyDictOfEntries (entries : List (String × JValue)) : List (String × JValue) :=
  entries.foldl (fun acc e => pyDictSet acc e.1 e.2) []

mutual

/-- Size of a `JValue` (leaves count 1, keys do not count), used as fuel bound
for the functions whose Python originals recurse through dictionary lookups. -/
def sizeJ : JValue → Nat
  | .str _ => 1
  | .int _ => 1
  | .null => 1
  | .arr xs => 1 + sizeJL xs
  | .obj kvs => 1 + sizeJO kvs

/-- Total size of a list of values. -/
def sizeJL : List JValue → Nat
  | [] => 0
  | x :: xs => sizeJ x + sizeJL xs

/-- Total size of the values of an association list. -/
def sizeJO : List (String × JValue) → Nat
  | [] => 0
  | (_, v) :: kvs => sizeJ v + sizeJO kvs

end

/-- The `MindMap` dataclass of `mindmap.py`: label, node id, summary, children
and keywords.  Dataclass equality (field-wise, recursive) is Lean's structural
equality on this type. -/
inductive MindMap where
  | mk (label : String) (node : Int) (summary : String)
      (children : List MindMap) (keywords : List String)

/-- Field accessor `label`. -/
def MindMap.label : MindMap → String
  | .mk l _ _ _ _ => l

/-- Field accessor `node`. -/
def MindMap.node : MindMap → Int
  | .mk _ n _ _ _ => n

/-- Field accessor `summary`. -/
def MindMap.summary : MindMap → String
  | .mk _ _ s _ _ => s

/-- Field accessor `children`. -/
def MindMap.children : MindMap → List MindMap
  | .mk _ _ _ c _ => c

/-- Field accessor `keywords`. -/
def MindMap.keywords : MindMap → List String
  | .mk _ _ _ _ k => k

mutual

/-- `MindMap._to_dict` (mindmap.py lines 245-259): recursive plain-data
projection with keys label, node, summary, children, keywords.  The source's
`[...] if self.children else []` equals mapping over the (possibly empty)
children list. -/
def MindMap.to_dict : MindMap → JValue
  | .mk l n s cs ks =>
    .obj [("label", .str l), ("node", .int n), ("summary", .str s),
          ("children", .arr (MindMap.to_dict_list cs)),
          ("keywords", .arr (ks.map JValue.str))]

/-- `[child._to_dict() for child in self.children]`. -/
def MindMap.to_dict_list : List MindMap → List JValue
  | [] => []
  | c :: cs => MindMap.to_dict c :: MindMap.to_dict_list cs

end

mutual

/-- Value treatment in `dict_keys_to_lowercase` of `mindmap.py` (lines
321-333): a value that is itself a dict is recursed into; any other value —
including lists — is kept unchanged. -/
def lowerShallowVal : JValue → JValue
  | .obj kvs => .obj (pyDictOfEntries (lowerEntriesShallow kvs))
  | v => v

/-- The loop of `dict_keys_to_lowercase` from `mindmap.py`: each key is
lower-cased, each value passed through `lowerShallowVal`. -/
def lowerEntriesShallow : List (String × JValue) → List (String × JValue)
  | [] => []
  | (k, v) :: rest => (pyLower k, lowerShallowVal v) :: lowerEntriesShallow rest

end

/-- `dict_keys_to_lowercase` from `mindmap.py`: builds the new dict by
assigning the lower-cased bindings in order (so on a case collision the later
binding wins, at the earlier binding's position, as in Python). -/
def dict_keys_to_lowercase (kvs : List (String × JValue)) :
    List (String × JValue) :=
  pyDictOfEntries (lowerEntriesShallow kvs)

/-- `[keyword for each element of a keywords list]`: every element must be a
string for the typed tree; the model restricts values to the string shape the
pipeline produces. -/
def strListOfJ : List JValue → Option (List String)
  | [] => some []
  | .str s :: rest => (strListOfJ rest).map (fun l => s :: l)
  | _ :: _ => none

/-- `MindMap.from_dict` (mindmap.py lines 42-58), fuel-indexed because the
Python recursion goes through a dictionary lookup on the lower-cased dict.
Steps: lower-case the keys (shallowly, `dict_keys_to_lowercase` of
mindmap.py), call `MindMap(**tree_dict)` — which raises unless every key is a
dataclass field name and `label` and `node` are present — and rebuild
`children` by recursing on `tree_dict.get("children", [])`.  A non-dict input
or a non-list `children` value raises in Python and is `none` here; the model
restricts field values to the types of the dataclass fields. -/
def from_dict_fuel : Nat → JValue → Option MindMap
  | 0, _ => none
  | fuel + 1, .obj kvs =>
    let td := dict_keys_to_lowercase kvs
    if td.all (fun e =>
        ["label", "node", "summary", "children", "keywords"].contains e.1) then
      match td.lookup "label", td.lookup "node" with
      | some (.str l), some (.int n) =>
        match (match td.lookup "summary" with
               | none => some ""
               | some (.str s) => some s
               | some _ => none : Option String) with
        | some s =>
          match (match td.lookup "keywords" with
                 | none => some []
                 | some (.arr ks) => strListOfJ ks
                 | some _ => none : Option (List String)) with
          | some ks =>
            match td.lookup "children" with
            | none => some (.mk l n s [] ks)
            | some (.arr cs) =>
              (cs.mapM (from_dict_fuel fuel)).map (fun cl => .mk l n s cl ks)
            | some _ => none
          | none => none
        | none => none
      | _, _ => none
    else none
  | _ + 1, _ => none

/-- `MindMap.from_dict`, with fuel `sizeJ` which bounds the recursion depth. -/
def from_dict (v : JValue) : Option MindMap :=
  from_dict_fuel (sizeJ v + 1) v

mutual

/-- The nested `dict_keys_to_lowercase` of `_parse_llm_to_themetree`
(mindmap_generator.py lines 149-157): unlike the one in `mindmap.py` it also
walks lists, recursing into every element. -/
def dict_keys_to_lowercase_deep : JValue → JValue
  | .obj kvs => .obj (pyDictOfEntries (lowerEntriesDeep kvs))
  | .arr xs => .arr (lowerListDeep xs)
  | v => v

/-- The dict-comprehension of `dict_keys_to_lowercase_deep`. -/
def lowerEntriesDeep : List (String × JValue) → List (String × JValue)
  | [] => []
  | (k, v) :: rest =>
    (pyLower k, dict_keys_to_lowercase_deep v) :: lowerEntriesDeep rest

/-- The list-comprehension of `dict_keys_to_lowercase_deep`. -/
def lowerListDeep : List JValue → List JValue
  | [] => []
  | x :: xs => dict_keys_to_lowercase_deep x :: lowerListDeep xs

end

/-- The distinct failures `validate_node` (mindmap_generator.py lines 125-147)
can raise.  The Python code raises `ValueError` with a formatted message; the
embedding keeps the data the message carries: which check failed, the
offending key or key set, and the path.  `fuelOut` is the fuel-exhaustion
marker of the embedding only; it is unreachable when the fuel exceeds the
value's size. -/
inductive VError where
  | notDict (path : String)
  | illegalKeys (keys : List String) (path : String)
  | missingOrNull (key : String) (path : String)
  | childrenNotList (path : String)
  | fuelOut

/-- `allowed_keys = {"label", "node", "summary", "children"}`.  The source
iterates this Python set in an unspecified order; the embedding fixes the
textual order, which no checked property depends on (each concrete input has
at most one missing key). -/
def allowed_keys : List String := ["label", "node", "summary", "children"]

/-- `f"{path} -> children[{idx}]"`. -/
def extendPath (path : String) (idx : Nat) : String :=
  path ++ " -> children[" ++ toString idx ++ "]"

/-- First raised error of a sequence of child validations: the source's loop
returns at the first raising child, which is the first error here. -/
def firstError : List (Except VError Unit) → Except VError Unit
  | [] => .ok ()
  | .ok _ :: rest => firstError rest
  | .error e :: _ => .error e

/-- `validate_node` (mindmap_generator.py lines 125-147), fuel-indexed because
the recursion goes through a dictionary lookup.  Order of checks as in the
source: not a dict; illegal keys (the source reports them as a set, the
embedding in key order); each required key absent or null; `children` not a
list; then every child, with the path extended by its index. -/
def validate_node_fuel : Nat → JValue → String → Except VError Unit
  | 0, _, _ => .error .fuelOut
  | fuel + 1, v, path =>
    match v with
    | .obj kvs =>
      if ((kvs.map Prod.fst).filter (fun k => !(allowed_keys.contains k))).isEmpty then
        match allowed_keys.find? (fun k =>
            match kvs.lookup k with
            | none => true
            | some .null => true
            | some _ => false) with
        | some k => .error (.missingOrNull k path)
        | none =>
          match kvs.lookup "children" with
          | some (.arr cs) =>
            firstError (cs.enum.map (fun ic =>
              validate_node_fuel fuel ic.2 (extendPath path ic.1)))
          | _ => .error (.childrenNotList path)
      else .error (.illegalKeys
        ((kvs.map Prod.fst).filter (fun k => !(allowed_keys.contains k))) path)
    | _ => .error (.notDict path)

/-- `validate_node(node, path)`, with fuel `sizeJ` bounding recursion depth. -/
def validate_node (v : JValue) (path : String) : Except VError Unit :=
  validate_node_fuel (sizeJ v + 1) v path

/-- Python `\s` and `str.strip()` whitespace, ASCII fragment. -/
def pyIsSpace (c : Char) : Bool :=
  c == ' ' || c == '\t' || c == '\n' || c == '\r' || c == '\x0b' || c == '\x0c'

/-- `text.strip()`: remove leading and trailing whitespace. -/
def pyStrip (l : List Char) : List Char :=
  ((l.dropWhile pyIsSpace).reverse.dropWhile pyIsSpace).reverse

/-- `re.sub(r"^` ++ "```" ++ `[a-zA-Z]*\s*", "", text)`: if the text starts
with a fenced-code marker, drop it, then the maximal run of ASCII letters (an
optional language tag), then the maximal run of whitespace.  The pattern is
anchored, so at most one occurrence is removed. -/
def stripLeadingFence (l : List Char) : List Char :=
  if l.take 3 = ['`', '`', '`'] then
    ((l.drop 3).dropWhile Char.isAlpha).dropWhile pyIsSpace
  else l

/-- `re.sub(r"` ++ "```" ++ `$", "", text)`: remove one trailing fence marker.
Python's `$` also matches just before a final newline, so a fence directly
before a terminal newline is removed as well. -/
def stripTrailingFence (l : List Char) : List Char :=
  if l.reverse.take 3 = ['`', '`', '`'] then (l.reverse.drop 3).reverse
  else if l.reverse.take 4 = ['\n', '`', '`', '`'] then
    ('\n' :: l.reverse.drop 4).reverse
  else l

/-- `re.sub(r"^[a-zA-Z]+\s*\n*` ++ "\x7b" ++ `", "` ++ "\x7b" ++ `", text)`:
a leading alphabetic label token, followed by whitespace, followed by an
opening brace, is replaced by the brace.  Greedy whitespace matching is
equivalent to the regex's `\s*\n*` here because only a brace may follow. -/
def stripLabelToken : List Char → List Char
  | [] => []
  | c :: rest =>
    if c.isAlpha then
      match ((c :: rest).dropWhile Char.isAlpha).dropWhile pyIsSpace with
      | '{' :: tail => '{' :: tail
      | _ => c :: rest
    else c :: rest

/-- `re.sub(r"^[^(` ++ "\x7b" ++ `\[]*(` ++ "\x7b" ++ `|\[)", r"\1", text,
flags=re.DOTALL)`: drop everything before the first `(`, brace or bracket —
but only when that first special character is a brace or a bracket; a `(`
first means no match and the text is unchanged. -/
def stripToBrace (l : List Char) : List Char :=
  match l.dropWhile (fun c => !(c == '(' || c == '{' || c == '[')) with
  | '{' :: tail => '{' :: tail
  | '[' :: tail => '[' :: tail
  | _ => l

/-- The response-normalization pipeline at the start of
`_parse_llm_to_themetree` (mindmap_generator.py lines 103-108): strip
whitespace, then the four anchored regex substitutions in source order. -/
def normalize_llm_text (l : List Char) : List Char :=
  stripToBrace (stripLabelToken (stripTrailingFence (stripLeadingFence (pyStrip l))))

/-- A chat message (`{"role": ..., "content": ...}`). -/
structure Msg where
  role : String
  content : String

/-- A post-processing callback: Python `Callable[[str], str]` which may raise. -/
abbrev Callback := String → Except String String

/-- The request-engine collaborator, `llm_engine.get_response(chat_history,
**kwargs)`.  The extra `Nat` is the attempt index: successive retries of the
same call may succeed or fail differently, which the pure embedding expresses
by indexing the engine's behaviour by the attempt. -/
abbrev RequestEngine := List Msg → Nat → Except String String

/-- The callback loop `for func in processing_callbacks: response =
func(response)`; a raising callback aborts the loop. -/
def applyCallbackList : List Callback → String → Except String String
  | [], r => .ok r
  | f :: fs, r =>
    match f r with
    | .ok r2 => applyCallbackList fs r2
    | .error e => .error e

/-- The callback loop guarded by `if processing_callbacks is not None`. -/
def applyCallbacks (cbs : Option (List Callback)) (r : String) :
    Except String String :=
  match cbs with
  | none => .ok r
  | some fs => applyCallbackList fs r

/-- The body of one `try:` block of `fetch`: the engine call, then the
callback chain applied to its response.  An exception from either is caught by
the same `except Exception`. -/
def attemptStep (llm_engine : RequestEngine) (chat_history : List Msg)
    (processing_callbacks : Option (List Callback)) (attempt : Nat) :
    Except String String :=
  (llm_engine chat_history attempt).bind (applyCallbacks processing_callbacks)

/-- Observable outcome of one task's `fetch`: the returned response, how many
times the request engine was invoked, and the argument of each `time.sleep` /
`asyncio.sleep` in order.  The instrumentation (calls, sleeps) records what the
source does; the source itself returns only the response. -/
structure FetchRes where
  response : String
  engine_calls : Nat
  sleeps : List Nat

/-- `retry_delay = 1` then `retry_delay = min(retry_delay * 2, 60)` after each
failure: the successive sleep delays starting from `d`. -/
def delaySeq : Nat → Nat → List Nat
  | _, 0 => []
  | d, k + 1 => d :: delaySeq (min (d * 2) 60) k

/-- The retry loop of `run_parallel_prompts.fetch` (utils.py lines 60-85):
`for attempt in range(max_retries)`, one engine call per attempt; on success
return the (post-callback) response; on any exception sleep `retry_delay` and
double it, capped at 60; when the loop exhausts, return the empty string. -/
def fetch_parallel_loop (step : Nat → Except String String) :
    Nat → Nat → Nat → FetchRes
  | 0, _, _ => ⟨"", 0, []⟩
  | remaining + 1, attempt, retry_delay =>
    match step attempt with
    | .ok r => ⟨r, 1, []⟩
    | .error _ =>
      let rest :=
        fetch_parallel_loop step remaining (attempt + 1) (min (retry_delay * 2) 60)
      ⟨rest.response, rest.engine_calls + 1, retry_delay :: rest.sleeps⟩

/-- `run_parallel_prompts.fetch`: builds the two-message chat history, then
runs the retry loop with `max_retries = 5` and initial delay 1, and returns
the pair `(idx, response)` (plus the instrumentation). -/
def fetch_parallel (llm_engine : RequestEngine) (system_prompt : String)
    (processing_callbacks : Option (List Callback)) (idx : Nat)
    (prompt : String) : Nat × FetchRes :=
  let chat_history : List Msg := [⟨"system", system_prompt⟩, ⟨"user", prompt⟩]
  (idx, fetch_parallel_loop
    (attemptStep llm_engine chat_history processing_callbacks) 5 0 1)

/-- The retry loop of `run_concurrent_prompts.fetch` (utils.py lines 154-176),
textually the same loop as the thread variant's, with `asyncio.sleep` for
`time.sleep`.  The surrounding `async with semaphore` bounds how many tasks
run at once and does not affect any per-task value. -/
def fetch_concurrent_loop (step : Nat → Except String String) :
    Nat → Nat → Nat → FetchRes
  | 0, _, _ => ⟨"", 0, []⟩
  | remaining + 1, attempt, retry_delay =>
    match step attempt with
    | .ok r => ⟨r, 1, []⟩
    | .error _ =>
      let rest :=
        fetch_concurrent_loop step remaining (attempt + 1) (min (retry_delay * 2) 60)
      ⟨rest.response, rest.engine_calls + 1, retry_delay :: rest.sleeps⟩

/-- `run_concurrent_prompts.fetch`. -/
def fetch_concurrent (llm_engine : RequestEngine) (system_prompt : String)
    (processing_callbacks : Option (List Callback)) (idx : Nat)
    (prompt : String) : Nat × FetchRes :=
  let chat_history : List Msg := [⟨"system", system_prompt⟩, ⟨"user", prompt⟩]
  (idx, fetch_concurrent_loop
    (attemptStep llm_engine chat_history processing_callbacks) 5 0 1)

/-- The body of the `for future in as_completed(...)` collection loop shared
verbatim by both runners: `idx, result = future.result(); results[idx] =
result` — look up the completed future, write its response at its submission
index. -/
def write_back (futures : List (Nat × FetchRes)) (results : List String)
    (j : Nat) : List String :=
  match futures.get? j with
  | some (idx, res) => results.set idx res.response
  | none => results

/-- `run_parallel_prompts` (utils.py lines 18-103).  `completion_order` lists
the positions of the submitted futures in the order `as_completed` yields
them: the scheduler's only observable choice.  Results start as `["" for _ in
prompts]` and each completed future's response is written at the index
captured at submission time. -/
def run_parallel_prompts (llm_engine : RequestEngine) (prompts : List String)
    (system_prompt : String)
    (processing_callbacks : Option (List Callback) := none)
    (completion_order : List Nat := List.range prompts.length) :
    Except String (List String) :=
  if prompts.isEmpty then .error "Prompts list cannot be empty"
  else
    let futures := prompts.enum.map (fun ip =>
      fetch_parallel llm_engine system_prompt processing_callbacks ip.1 ip.2)
    .ok (completion_order.foldl (write_back futures) (prompts.map (fun _ => "")))

/-- `run_concurrent_prompts` (utils.py lines 106-187): the cooperative variant
— tasks gated by a semaphore of width `max_workers`, completions consumed by
`asyncio.as_completed` — with the same empty-prompt guard, the same pre-sized
results list and the same write-back-at-submission-index collection. -/
def run_concurrent_prompts (llm_engine : RequestEngine) (prompts : List String)
    (system_prompt : String)
    (processing_callbacks : Option (List Callback) := none)
    (completion_order : List Nat := List.range prompts.length) :
    Except String (List String) :=
  if prompts.isEmpty then .error "Prompts list cannot be empty"
  else
    let tasks := prompts.enum.map (fun ip =>
      fetch_concurrent llm_engine system_prompt processing_callbacks ip.1 ip.2)
    .ok (completion_order.foldl (write_back tasks) (prompts.map (fun _ => "")))

/-! ## Supporting lemmas -/

/-- Every value has positive size. -/
theorem sizeJ_pos : ∀ v : JValue, 0 < sizeJ v := by
  intro v
  cases v <;> simp [sizeJ]

/-- An element of a list is no larger than the list's total size. -/
theorem sizeJ_le_sizeJL {c : JValue} : ∀ {cs : List JValue}, c ∈ cs → sizeJ c ≤ sizeJL cs := by
  intro cs h
  induction cs with
  | nil => cases h
  | cons x xs ih =>
    have hx : sizeJL (x :: xs) = sizeJ x + sizeJL xs := rfl
    rcases List.mem_cons.mp h with h1 | h2
    · subst h1; omega
    · have := ih h2; omega

/-- A looked-up value is no larger than the association list's total size. -/
theorem sizeJ_le_of_lookup {k : String} {v : JValue} :
    ∀ {kvs : List (String × JValue)}, kvs.lookup k = some v → sizeJ v ≤ sizeJO kvs := by
  intro kvs h
  induction kvs with
  | nil => simp [List.lookup] at h
  | cons e rest ih =>
    obtain ⟨k2, v2⟩ := e
    have hx : sizeJO ((k2, v2) :: rest) = sizeJ v2 + sizeJO rest := rfl
    rw [List.lookup_cons] at h
    by_cases hk : k == k2
    · simp [hk] at h; subst h; omega
    · simp [hk] at h; have := ih h; omega

/-- A child of the `children` array of an object is strictly smaller than the
object. -/
theorem sizeJ_child_lt {kvs : List (String × JValue)} {cs : List JValue} {c : JValue}
    (hl : kvs.lookup "children" = some (.arr cs)) (hc : c ∈ cs) :
    sizeJ c < sizeJ (.obj kvs) := by
  have h1 : sizeJ c ≤ sizeJL cs := sizeJ_le_sizeJL hc
  have h2 : sizeJ (JValue.arr cs) ≤ sizeJO kvs := sizeJ_le_of_lookup hl
  have h3 : sizeJ (JValue.arr cs) = 1 + sizeJL cs := rfl
  have h4 : sizeJ (JValue.obj kvs) = 1 + sizeJO kvs := rfl
  omega

/-- The two retry loops compute the same outcome for every step behaviour. -/
theorem fetch_loops_eq (step : Nat → Except String String) :
    ∀ (remaining attempt retry_delay : Nat),
      fetch_parallel_loop step remaining attempt retry_delay =
        fetch_concurrent_loop step remaining attempt retry_delay := by
  intro remaining
  induction remaining with
  | zero => intro a d; rfl
  | succ r ih =>
    intro a d
    simp only [fetch_parallel_loop, fetch_concurrent_loop, ih]

/-- The two per-task fetches agree on every input. -/
theorem fetch_parallel_eq_concurrent (llm_engine : RequestEngine)
    (system_prompt : String) (processing_callbacks : Option (List Callback)) :
    ∀ (idx : Nat) (prompt : String),
      fetch_parallel llm_engine system_prompt processing_callbacks idx prompt =
        fetch_concurrent llm_engine system_prompt processing_callbacks idx prompt := by
  intro idx prompt
  simp only [fetch_parallel, fetch_concurrent, fetch_loops_eq]

/-! ## Claim theorems -/

/-- C10 — for the empty prompts list both batch runners reject the batch with
`ValueError("Prompts list cannot be empty")` instead of returning an empty
results list, whatever the engine, system prompt, callbacks and completion
order. -/
theorem C10_empty_prompts_rejected :
    ∀ (llm_engine : RequestEngine) (system_prompt : String)
      (processing_callbacks : Option (List Callback))
      (completion_order : List Nat),
      run_parallel_prompts llm_engine [] system_prompt processing_callbacks
          completion_order = .error "Prompts list cannot be empty"
      ∧ run_concurrent_prompts llm_engine [] system_prompt processing_callbacks
          completion_order = .error "Prompts list cannot be empty" :=
  fun _ _ _ _ => ⟨rfl, rfl⟩

/-- C6 — the thread-pool runner and the cooperative gated runner are
equivalent: for every engine, prompt list, system prompt, callback chain and
completion order they return the same results, and their per-task fetches have
identical retry behaviour (same response, same engine-invocation count, same
backoff sleeps). -/
theorem C6_execution_strategies_equivalent :
    ∀ (llm_engine : RequestEngine) (prompts : List String)
      (system_prompt : String) (processing_callbacks : Option (List Callback))
      (completion_order : List Nat),
      run_parallel_prompts llm_engine prompts system_prompt
          processing_callbacks completion_order =
        run_concurrent_prompts llm_engine prompts system_prompt
          processing_callbacks completion_order
      ∧ ∀ (idx : Nat) (prompt : String),
          fetch_parallel llm_engine system_prompt processing_callbacks idx prompt =
            fetch_concurrent llm_engine system_prompt processing_callbacks idx prompt := by
  intro llm prompts sys cbs order
  refine ⟨?_, fetch_parallel_eq_concurrent llm sys cbs⟩
  simp only [run_parallel_prompts, run_concurrent_prompts,
    fetch_parallel_eq_concurrent]

/-- Retry-loop exhaustion: when every remaining attempt's step fails, the loop
makes exactly `remaining` engine calls, sleeps the capped-doubling delay after
every failure, and degrades to the empty string. -/
theorem fetch_parallel_loop_exhaust (step : Nat → Except String String) :
    ∀ (remaining attempt retry_delay : Nat),
      (∀ j, j < remaining → ∃ e, step (attempt + j) = .error e) →
      fetch_parallel_loop step remaining attempt retry_delay =
        ⟨"", remaining, delaySeq retry_delay remaining⟩ := by
  intro remaining
  induction remaining with
  | zero => intro a d _; rfl
  | succ r ih =>
    intro a d hfail
    obtain ⟨e, he⟩ := hfail 0 (Nat.succ_pos r)
    simp only [Nat.add_zero] at he
    have hrest := ih (a + 1) (min (d * 2) 60) (fun j hj => by
      obtain ⟨e2, he2⟩ := hfail (j + 1) (Nat.succ_lt_succ hj)
      exact ⟨e2, by rw [← he2]; ring_nf⟩)
    simp only [fetch_parallel_loop, he, hrest, delaySeq]

/-- Retry-loop first success: if all steps before attempt `k` fail and attempt
`k` succeeds with `r`, the loop returns `r` after exactly `k + 1` engine calls
and `k` backoff sleeps. -/
theorem fetch_parallel_loop_first_success (step : Nat → Except String String)
    (r : String) :
    ∀ (k remaining attempt retry_delay : Nat),
      k < remaining →
      (∀ j, j < k → ∃ e, step (attempt + j) = .error e) →
      step (attempt + k) = .ok r →
      fetch_parallel_loop step remaining attempt retry_delay =
        ⟨r, k + 1, delaySeq retry_delay k⟩ := by
  intro k
  induction k with
  | zero =>
    intro remaining a d hlt _ hok
    obtain ⟨r2, hr⟩ : ∃ r2, remaining = r2 + 1 :=
      ⟨remaining - 1, by omega⟩
    subst hr
    simp only [Nat.add_zero] at hok
    simp only [fetch_parallel_loop, hok, delaySeq]
  | succ k ih =>
    intro remaining a d hlt hfail hok
    obtain ⟨r2, hr⟩ : ∃ r2, remaining = r2 + 1 := ⟨remaining - 1, by omega⟩
    subst hr
    obtain ⟨e, he⟩ := hfail 0 (Nat.succ_pos k)
    simp only [Nat.add_zero] at he
    have hrest := ih r2 (a + 1) (min (d * 2) 60) (by omega)
      (fun j hj => by
        obtain ⟨e2, he2⟩ := hfail (j + 1) (Nat.succ_lt_succ hj)
        exact ⟨e2, by rw [← he2]; ring_nf⟩)
      (by rw [← hok]; ring_nf)
    simp only [fetch_parallel_loop, he, hrest, delaySeq]

/-- C5 — retry exhaustion: a task whose engine call raises on every attempt
invokes the engine exactly 5 times, returns the empty string (no exception
reaches the runner: the fetch returns a value), and sleeps the backoff delays
1, 2, 4, 8, 16 — the doubling sequence starting at 1, each value
`min (2 ^ attempt, 60)`, i.e. doubled with ceiling 60. -/
theorem C5_retry_exhaustion :
    ∀ (llm_engine : RequestEngine) (system_prompt : String)
      (processing_callbacks : Option (List Callback)) (idx : Nat)
      (prompt : String),
      (∀ attempt, ∃ e,
        llm_engine [⟨"system", system_prompt⟩, ⟨"user", prompt⟩] attempt =
          .error e) →
      fetch_parallel llm_engine system_prompt processing_callbacks idx prompt =
        (idx, ⟨"", 5, [1, 2, 4, 8, 16]⟩)
      ∧ delaySeq 1 5 = [1, 2, 4, 8, 16]
      ∧ (∀ j, j < 5 → [1, 2, 4, 8, 16].get? j = some (min (2 ^ j) 60)) := by
  intro llm sys cbs idx prompt hfail
  refine ⟨?_, rfl, by decide⟩
  have hstep : ∀ j, j < 5 → ∃ e,
      attemptStep llm [⟨"system", sys⟩, ⟨"user", prompt⟩] cbs (0 + j) =
        .error e := by
    intro j _
    obtain ⟨e, he⟩ := hfail j
    refine ⟨e, ?_⟩
    simp only [attemptStep, Nat.zero_add, he, Except.bind]
  have := fetch_parallel_loop_exhaust
    (attemptStep llm [⟨"system", sys⟩, ⟨"user", prompt⟩] cbs) 5 0 1 hstep
  simp only [fetch_parallel]
  rw [this]
  rfl

/-- C5 witness: a concrete always-failing engine exhausts its 5 attempts and
returns the empty string with backoff trace 1, 2, 4, 8, 16. -/
theorem C5_retry_exhaustion_witness :
    fetch_parallel (fun _ _ => .error "boom") "sys" none 3 "p" =
      (3, ⟨"", 5, [1, 2, 4, 8, 16]⟩) :=
  (C5_retry_exhaustion (fun _ _ => .error "boom") "sys" none 3 "p"
    (fun _ => ⟨"boom", rfl⟩)).1

/-- C3 counterexample — the claim that a failure of a parse/validation-style
post-processing callback never triggers an additional request-engine
invocation is false: with an engine that always succeeds and a single
callback that always raises, the engine is invoked 5 times for the task, not
once.  The `try:` block of `fetch` wraps the callback loop together with the
engine call, so a raising callback is caught and retried like a transport
failure. -/
theorem C3_counterexample :
    (fetch_parallel (fun _ _ => .ok "raw") "sys"
        (some [fun _ => .error "ParseError: malformed"]) 0 "p").2.engine_calls = 5
    ∧ (fetch_parallel (fun _ _ => .ok "raw") "sys"
        (some [fun _ => .error "ParseError: malformed"]) 0 "p").2.engine_calls ≠ 1 :=
  ⟨rfl, by decide⟩

/-- C3 amended — in the batch runner, a retry is triggered by any exception
raised inside an attempt: by the request-engine call or by a post-processing
callback applied to its successful response.  Exactly: if the combined
engine-plus-callback step fails on attempts `0..k-1` and succeeds on attempt
`k < 5` with response `r`, the task performs `k + 1` request-engine
invocations (so parse/validation-style callback failures do re-invoke the
engine) and sleeps the capped-doubling backoff before each retry. -/
theorem C3_any_attempt_exception_is_retried :
    ∀ (llm_engine : RequestEngine) (system_prompt : String)
      (processing_callbacks : Option (List Callback)) (idx : Nat)
      (prompt : String) (k : Nat) (r : String),
      k < 5 →
      (∀ j, j < k → ∃ e,
        attemptStep llm_engine [⟨"system", system_prompt⟩, ⟨"user", prompt⟩]
          processing_callbacks j = .error e) →
      attemptStep llm_engine [⟨"system", system_prompt⟩, ⟨"user", prompt⟩]
        processing_callbacks k = .ok r →
      fetch_parallel llm_engine system_prompt processing_callbacks idx prompt =
        (idx, ⟨r, k + 1, delaySeq 1 k⟩) := by
  intro llm sys cbs idx prompt k r hk hfail hok
  have := fetch_parallel_loop_first_success
    (attemptStep llm [⟨"system", sys⟩, ⟨"user", prompt⟩] cbs) r k 5 0 1 hk
    (fun j hj => by
      obtain ⟨e, he⟩ := hfail j hj
      exact ⟨e, by simpa using he⟩)
    (by simpa using hok)
  simp only [fetch_parallel]
  rw [this]

/-- C3 witness: the engine succeeds on every attempt, the callback rejects the
first response and accepts the second — the engine is invoked twice, showing a
callback failure caused the second engine invocation. -/
theorem C3_any_attempt_exception_is_retried_witness :
    fetch_parallel (fun _ attempt => .ok (if attempt = 0 then "bad" else "good"))
        "sys" (some [fun s => if s = "bad" then .error "ParseError" else .ok s])
        0 "p" = (0, ⟨"good", 2, [1]⟩) := by
  have := C3_any_attempt_exception_is_retried
    (fun _ attempt => .ok (if attempt = 0 then "bad" else "good")) "sys"
    (some [fun s => if s = "bad" then .error "ParseError" else .ok s]) 0 "p" 1
    "good" (by omega)
    (fun j hj => by
      obtain rfl : j = 0 := by omega
      exact ⟨"ParseError", rfl⟩)
    rfl
  simpa using this

/-- Folding completions over the results list writes each future's response
at its submission index, so position `i` of the outcome holds future `i`'s
response as soon as `i` was completed, whatever the completion order and
multiplicity. -/
theorem write_back_foldl_get? (futures : List (Nat × FetchRes))
    (hfst : ∀ j p, futures.get? j = some p → p.1 = j) :
    ∀ (order : List Nat) (init : List String) (i : Nat),
      init.length = futures.length →
      (order.foldl (write_back futures) init).get? i =
        if i ∈ order ∧ i < futures.length then
          (futures.get? i).map (fun pr => pr.2.response)
        else init.get? i := by
  intro order
  induction order with
  | nil =>
    intro init i hlen
    simp
  | cons o rest ih =>
    intro init i hlen
    simp only [List.foldl_cons]
    cases hfo : futures.get? o with
    | none =>
      have ho : futures.length ≤ o := List.get?_eq_none.mp hfo
      have hfo2 : futures[o]? = none := by
        rw [← List.get?_eq_getElem?]; exact hfo
      rw [show write_back futures init o = init by simp [write_back, hfo2]]
      rw [ih init i hlen]
      by_cases hi : i ∈ rest ∧ i < futures.length
      · rw [if_pos hi, if_pos ⟨List.mem_cons_of_mem o hi.1, hi.2⟩]
      · rw [if_neg hi]
        by_cases hc : i ∈ o :: rest ∧ i < futures.length
        · exfalso
          rcases List.mem_cons.mp hc.1 with h1 | h2
          · omega
          · exact hi ⟨h2, hc.2⟩
        · rw [if_neg hc]
    | some pr =>
      obtain ⟨idx, res⟩ := pr
      have hpr : idx = o := hfst o (idx, res) hfo
      subst hpr
      have ho : idx < futures.length := by
        by_contra hcon
        rw [List.get?_eq_none.mpr (by omega)] at hfo
        cases hfo
      have hfo2 : futures[idx]? = some (idx, res) := by
        rw [← List.get?_eq_getElem?]; exact hfo
      have hwb : write_back futures init idx = init.set idx res.response := by
        simp [write_back, hfo2]
      rw [hwb]
      have hlen2 : (init.set idx res.response).length = futures.length := by
        rw [List.length_set]; exact hlen
      rw [ih _ i hlen2]
      by_cases hi : i ∈ rest ∧ i < futures.length
      · rw [if_pos hi, if_pos ⟨List.mem_cons_of_mem idx hi.1, hi.2⟩]
      · rw [if_neg hi]
        by_cases hio : i = idx
        · subst hio
          rw [if_pos ⟨List.mem_cons_self i rest, by omega⟩]
          cases hg : init.get? i with
          | none =>
            rw [List.get?_eq_none] at hg
            omega
          | some a =>
            rw [List.get?_set_eq, hg, hfo]
            rfl
        · rw [List.get?_set_ne _ _ (by omega)]
          by_cases hc : i ∈ idx :: rest ∧ i < futures.length
          · exfalso
            rcases List.mem_cons.mp hc.1 with h1 | h2
            · exact hio h1
            · exact hi ⟨h2, hc.2⟩
          · rw [if_neg hc]

/-- The write-back loop never changes the length of the results list. -/
theorem write_back_foldl_length (futures : List (Nat × FetchRes)) :
    ∀ (order : List Nat) (init : List String),
      (order.foldl (write_back futures) init).length = init.length := by
  intro order
  induction order with
  | nil => intro init; rfl
  | cons o rest ih =>
    intro init
    simp only [List.foldl_cons]
    cases hfo : futures[o]? with
    | none =>
      rw [show write_back futures init o = init by simp [write_back, hfo]]
      exact ih init
    | some pr =>
      rw [show write_back futures init o = init.set pr.1 pr.2.response by
        simp [write_back, hfo]]
      rw [ih _, List.length_set]

/-- C4 — order preservation: for every non-empty prompt list, engine, system
prompt, callback chain and completion order (any permutation of the submitted
indices), the batch runner returns exactly one response per prompt, in prompt
order: entry `i` is the retry-loop response for prompt `i`, however completion
was interleaved. -/
theorem C4_order_preservation :
    ∀ (llm_engine : RequestEngine) (prompts : List String)
      (system_prompt : String) (processing_callbacks : Option (List Callback))
      (completion_order : List Nat),
      prompts ≠ [] →
      completion_order.Perm (List.range prompts.length) →
      run_parallel_prompts llm_engine prompts system_prompt
          processing_callbacks completion_order =
        .ok (prompts.enum.map (fun ip =>
          (fetch_parallel llm_engine system_prompt processing_callbacks
            ip.1 ip.2).2.response))
      ∧ (prompts.enum.map (fun ip =>
          (fetch_parallel llm_engine system_prompt processing_callbacks
            ip.1 ip.2).2.response)).length = prompts.length := by
  intro llm prompts sys cbs order hne hperm
  constructor
  case right => simp
  have hempty : prompts.isEmpty = false := by
    cases prompts with
    | nil => exact absurd rfl hne
    | cons p ps => rfl
  simp only [run_parallel_prompts, hempty, Bool.false_eq_true, if_false]
  congr 1
  set f := fun ip : Nat × String =>
    fetch_parallel llm sys cbs ip.1 ip.2 with hf
  set futures := prompts.enum.map f with hfut
  have hflen : futures.length = prompts.length := by
    rw [hfut, List.length_map, List.enum_length]
  have hfst : ∀ j p, futures.get? j = some p → p.1 = j := by
    intro j p hp
    rw [hfut, List.get?_map, List.get?_enum] at hp
    cases hg : prompts.get? j with
    | none => rw [hg] at hp; cases hp
    | some a =>
      rw [hg] at hp
      have hp2 : f (j, a) = p := by simpa using hp
      rw [← hp2]
      rfl
  apply List.ext_get?
  intro i
  have hinit : (prompts.map (fun _ => "")).length = futures.length := by
    rw [List.length_map, hflen]
  rw [write_back_foldl_get? futures hfst order _ i hinit]
  by_cases hi : i < prompts.length
  · have hmem : i ∈ order := by
      rw [hperm.mem_iff, List.mem_range]
      exact hi
    rw [if_pos ⟨hmem, by omega⟩]
    rw [hfut, List.get?_map, List.get?_enum, List.get?_map, List.get?_enum]
    cases hg : prompts.get? i with
    | none => rw [List.get?_eq_none] at hg; omega
    | some a => rfl
  · rw [if_neg (by omega)]
    have h1 : (prompts.map (fun _ => "")).length ≤ i := by
      rw [List.length_map]; omega
    have h2 : (prompts.enum.map (fun ip => (f ip).2.response)).length ≤ i := by
      rw [List.length_map, List.enum_length]; omega
    rw [List.get?_eq_none.mpr h1, List.get?_eq_none.mpr h2]

/-- C4 witness: three prompts with a mock engine echoing `"R:" ++ prompt` and
an out-of-order completion schedule yield exactly `["R:a", "R:b", "R:c"]`. -/
theorem C4_order_preservation_witness :
    run_parallel_prompts
        (fun ch _ => .ok ("R:" ++ (ch.getLastD ⟨"", ""⟩).content))
        ["a", "b", "c"] "sys" none [2, 0, 1] = .ok ["R:a", "R:b", "R:c"] :=
  (C4_order_preservation
    (fun ch _ => .ok ("R:" ++ (ch.getLastD ⟨"", ""⟩).content))
    ["a", "b", "c"] "sys" none [2, 0, 1]
    (by decide) (by decide)).1

/-- Whether a text's last character is whitespace (false for the empty text). -/
def lastIsSpace (l : List Char) : Bool :=
  match l.getLast? with
  | some d => pyIsSpace d
  | none => false

/-- Every text that starts with an opening brace or bracket, does not end in a
fence marker and does not end in whitespace is a fixed point of the
normalization pipeline: each of its five stages leaves it unchanged. -/
theorem normalize_llm_text_fixed (u : List Char)
    (hhead : u.head? = some '{' ∨ u.head? = some '[')
    (hfence : u.reverse.take 3 ≠ ['`', '`', '`'])
    (hlast : lastIsSpace u = false) :
    normalize_llm_text u = u := by
  obtain ⟨c, t, rfl⟩ : ∃ c t, u = c :: t := by
    cases u with
    | nil => rcases hhead with h | h <;> cases h
    | cons c t => exact ⟨c, t, rfl⟩
  have hc : c = '{' ∨ c = '[' := by
    rcases hhead with h | h
    · exact Or.inl (by injection h)
    · exact Or.inr (by injection h)
  have hcspace : pyIsSpace c = false := by
    rcases hc with rfl | rfl <;> decide
  have hcalpha : c.isAlpha = false := by
    rcases hc with rfl | rfl <;> decide
  have hctick : c ≠ '`' := by
    rcases hc with rfl | rfl <;> decide
  obtain ⟨d, t2, hrev⟩ : ∃ d t2, (c :: t).reverse = d :: t2 := by
    cases hr : (c :: t).reverse with
    | nil => exact absurd (congrArg List.length hr) (by simp)
    | cons d t2 => exact ⟨d, t2, rfl⟩
  have hdlast : (c :: t).getLast? = some d := by
    rw [← List.head?_reverse, hrev]
    rfl
  have hdspace : pyIsSpace d = false := by
    unfold lastIsSpace at hlast
    rw [hdlast] at hlast
    exact hlast
  have h1 : pyStrip (c :: t) = c :: t := by
    unfold pyStrip
    rw [List.dropWhile_cons, hcspace]
    simp only [Bool.false_eq_true, if_false]
    rw [hrev, List.dropWhile_cons, hdspace]
    simp only [Bool.false_eq_true, if_false]
    rw [← hrev, List.reverse_reverse]
  have h2 : stripLeadingFence (c :: t) = c :: t := by
    unfold stripLeadingFence
    rw [if_neg]
    intro hcon
    have hs : List.take 3 (c :: t) = c :: List.take 2 t := rfl
    rw [hs] at hcon
    exact hctick (by injection hcon)
  have h3 : stripTrailingFence (c :: t) = c :: t := by
    unfold stripTrailingFence
    rw [if_neg hfence, if_neg]
    intro hcon
    have hs : List.take 4 (d :: t2) = d :: List.take 3 t2 := rfl
    rw [hrev, hs] at hcon
    have : d = '\n' := by injection hcon
    subst this
    exact absurd hdspace (by decide)
  have h4 : stripLabelToken (c :: t) = c :: t := by
    simp only [stripLabelToken, hcalpha, Bool.false_eq_true, if_false]
  have h5 : stripToBrace (c :: t) = c :: t := by
    unfold stripToBrace
    have hstop : (c :: t).dropWhile
        (fun ch => !(ch == '(' || ch == '{' || ch == '[')) = c :: t := by
      rw [List.dropWhile_cons]
      rcases hc with rfl | rfl <;> simp
    rw [hstop]
    rcases hc with rfl | rfl <;> rfl
  unfold normalize_llm_text
  rw [h1, h2, h3, h4, h5]

/-- C7 counterexample — normalization is not idempotent: on `"{a ` ++ "```" ++
`"` one pass yields `"{a "` (the trailing-fence strip exposes a trailing
space), and a second pass strips that space, giving `"{a"`. -/
theorem C7_counterexample :
    normalize_llm_text (normalize_llm_text ['{', 'a', ' ', '`', '`', '`']) ≠
      normalize_llm_text ['{', 'a', ' ', '`', '`', '`'] := by
  decide

/-- C7 amended — the strip pipeline is idempotent on every text whose
single-pass output starts with an opening brace or bracket and ends in neither
a fence marker nor whitespace (in particular on any input whose normal form is
a braced JSON object): for such texts the second pass is a no-op.  Without the
three provisos a second pass can strip further, so full idempotence fails. -/
theorem C7_normalization_idempotent_on_clean_outputs :
    ∀ (s : List Char),
      ((normalize_llm_text s).head? = some '{'
        ∨ (normalize_llm_text s).head? = some '[') →
      (normalize_llm_text s).reverse.take 3 ≠ ['`', '`', '`'] →
      lastIsSpace (normalize_llm_text s) = false →
      normalize_llm_text (normalize_llm_text s) = normalize_llm_text s :=
  fun _ h1 h2 h3 => normalize_llm_text_fixed _ h1 h2 h3

/-- C7 witness: a well-formed JSON object text is normalized to itself, and a
second normalization changes nothing. -/
theorem C7_normalization_idempotent_witness :
    normalize_llm_text (normalize_llm_text ['{', 'a', '}']) =
      normalize_llm_text ['{', 'a', '}'] :=
  C7_normalization_idempotent_on_clean_outputs ['{', 'a', '}']
    (by decide) (by decide) (by decide)

/-- A keywords list serializes and deserializes to itself. -/
theorem strListOfJ_map_str : ∀ ks : List String,
    strListOfJ (ks.map JValue.str) = some ks := by
  intro ks
  induction ks with
  | nil => rfl
  | cons k ks ih => simp [List.map_cons, strListOfJ, ih]

/-- A serialized child is no larger than the serialized children list. -/
theorem sizeJ_to_dict_list_mem :
    ∀ (cs : List MindMap) (c : MindMap), c ∈ cs →
      sizeJ (MindMap.to_dict c) ≤ sizeJL (MindMap.to_dict_list cs) := by
  intro cs c h
  induction cs with
  | nil => cases h
  | cons x xs ih =>
    have hx : sizeJL (MindMap.to_dict_list (x :: xs)) =
        sizeJ (MindMap.to_dict x) + sizeJL (MindMap.to_dict_list xs) := rfl
    rcases List.mem_cons.mp h with h1 | h2
    · subst h1; omega
    · have := ih h2; omega

/-- Rebuilding each serialized child rebuilds the children list. -/
theorem mapM_from_dict_to_dict_list (fuel : Nat) :
    ∀ (cs : List MindMap),
      (∀ c ∈ cs, from_dict_fuel fuel (MindMap.to_dict c) = some c) →
      (MindMap.to_dict_list cs).mapM (from_dict_fuel fuel) = some cs := by
  intro cs
  induction cs with
  | nil => intro _; rfl
  | cons c cs ih =>
    intro h
    have hc := h c (List.mem_cons_self c cs)
    have hrest := ih (fun x hx => h x (List.mem_cons_of_mem c hx))
    have hstep : MindMap.to_dict_list (c :: cs) =
        MindMap.to_dict c :: MindMap.to_dict_list cs := rfl
    rw [hstep, List.mapM_cons, hc, hrest]
    rfl

/-- Round-trip at every sufficient fuel: rebuilding a serialized tree yields
the tree back. -/
theorem from_dict_fuel_to_dict :
    ∀ (n : Nat) (T : MindMap), sizeJ (MindMap.to_dict T) ≤ n →
      from_dict_fuel n (MindMap.to_dict T) = some T := by
  intro n
  induction n using Nat.strong_induction_on with
  | _ n ih =>
    intro T hsz
    obtain ⟨l, nd, s, cs, ks⟩ := T
    have hpos := sizeJ_pos (MindMap.to_dict (.mk l nd s cs ks))
    obtain ⟨m, rfl⟩ : ∃ m, n = m + 1 := ⟨n - 1, by omega⟩
    have hstep : from_dict_fuel (m + 1) (MindMap.to_dict (.mk l nd s cs ks)) =
        match strListOfJ (ks.map JValue.str) with
        | some kk =>
          ((MindMap.to_dict_list cs).mapM (from_dict_fuel m)).map
            (fun cl => MindMap.mk l nd s cl kk)
        | none => none := rfl
    rw [hstep, strListOfJ_map_str]
    show ((MindMap.to_dict_list cs).mapM (from_dict_fuel m)).map
      (fun cl => MindMap.mk l nd s cl ks) = some (MindMap.mk l nd s cs ks)
    have hsz2 : sizeJ (MindMap.to_dict (.mk l nd s cs ks)) =
        1 + (1 + (1 + (1 + ((1 + sizeJL (MindMap.to_dict_list cs)) +
          ((1 + sizeJL (List.map JValue.str ks)) + 0))))) := rfl
    rw [mapM_from_dict_to_dict_list m cs (fun c hcmem => by
      apply ih m (by omega) c
      have h1 := sizeJ_to_dict_list_mem cs c hcmem
      omega)]
    rfl

/-- C1 — round-trip: for every tree `T`,
`MindMap.from_dict (T._to_dict()) == T` — label, node id, summary, children
and keywords all equal, recursively (structural equality of the dataclass). -/
theorem C1_roundtrip : ∀ T : MindMap, from_dict (MindMap.to_dict T) = some T := by
  intro T
  unfold from_dict
  exact from_dict_fuel_to_dict _ T (by omega)

/-- Deep key-lowering is the identity on lists of serialized keyword strings. -/
theorem lowerListDeep_map_str : ∀ ks : List String,
    lowerListDeep (ks.map JValue.str) = ks.map JValue.str := by
  intro ks
  induction ks with
  | nil => rfl
  | cons k ks ih => simp [List.map_cons, lowerListDeep, dict_keys_to_lowercase_deep, ih]

/-- Deep lowering a list element-wise is the identity when it fixes each
element. -/
theorem lowerListDeep_eq_of_forall : ∀ xs : List JValue,
    (∀ x ∈ xs, dict_keys_to_lowercase_deep x = x) → lowerListDeep xs = xs := by
  intro xs h
  induction xs with
  | nil => rfl
  | cons x rest ih =>
    have hstep : lowerListDeep (x :: rest) =
        dict_keys_to_lowercase_deep x :: lowerListDeep rest := rfl
    rw [hstep, h x (List.mem_cons_self x rest),
      ih (fun y hy => h y (List.mem_cons_of_mem x hy))]

/-- Every member of a serialized children list is the serialization of a
member of the children list. -/
theorem mem_to_dict_list : ∀ (cs : List MindMap) (x : JValue),
    x ∈ MindMap.to_dict_list cs → ∃ c, c ∈ cs ∧ x = MindMap.to_dict c := by
  intro cs
  induction cs with
  | nil => intro x h; cases h
  | cons c cs ih =>
    intro x h
    have hstep : MindMap.to_dict_list (c :: cs) =
        MindMap.to_dict c :: MindMap.to_dict_list cs := rfl
    rw [hstep] at h
    rcases List.mem_cons.mp h with h1 | h2
    · exact ⟨c, List.mem_cons_self c cs, h1⟩
    · obtain ⟨c2, hm, hx⟩ := ih x h2
      exact ⟨c2, List.mem_cons_of_mem c hm, hx⟩

/-- The recursive key-lowering pass of the parse pipeline is the identity on
serialized trees: every key `_to_dict` emits is already lower-case, at every
depth. -/
theorem deep_lower_to_dict_fuel :
    ∀ (n : Nat) (T : MindMap), sizeJ (MindMap.to_dict T) ≤ n →
      dict_keys_to_lowercase_deep (MindMap.to_dict T) = MindMap.to_dict T := by
  intro n
  induction n using Nat.strong_induction_on with
  | _ n ih =>
    intro T hsz
    obtain ⟨l, nd, s, cs, ks⟩ := T
    have hstep : dict_keys_to_lowercase_deep (MindMap.to_dict (.mk l nd s cs ks)) =
        .obj [("label", .str l), ("node", .int nd), ("summary", .str s),
          ("children", .arr (lowerListDeep (MindMap.to_dict_list cs))),
          ("keywords", .arr (lowerListDeep (ks.map JValue.str)))] := rfl
    have hsz2 : sizeJ (MindMap.to_dict (.mk l nd s cs ks)) =
        1 + (1 + (1 + (1 + ((1 + sizeJL (MindMap.to_dict_list cs)) +
          ((1 + sizeJL (List.map JValue.str ks)) + 0))))) := rfl
    have hch : lowerListDeep (MindMap.to_dict_list cs) =
        MindMap.to_dict_list cs := by
      apply lowerListDeep_eq_of_forall
      intro x hx
      obtain ⟨c, hcmem, rfl⟩ := mem_to_dict_list cs x hx
      have hle := sizeJ_le_sizeJL hx
      exact ih (n - 1) (by omega) c (by omega)
    rw [hstep, hch, lowerListDeep_map_str]
    rfl

/-- The parse pipeline's deep key-lowering fixes every serialized tree. -/
theorem dict_keys_to_lowercase_deep_to_dict (T : MindMap) :
    dict_keys_to_lowercase_deep (MindMap.to_dict T) = MindMap.to_dict T :=
  deep_lower_to_dict_fuel _ T (Nat.le_refl _)

mutual

/-- The serialized export restricted to the validator's four allowed keys:
`_to_dict` with the `keywords` entry removed at every depth. -/
def to_dict_no_keywords : MindMap → JValue
  | .mk l n s cs _ =>
    .obj [("label", .str l), ("node", .int n), ("summary", .str s),
          ("children", .arr (to_dict_no_keywords_list cs))]

/-- `to_dict_no_keywords` over a children list. -/
def to_dict_no_keywords_list : List MindMap → List JValue
  | [] => []
  | c :: cs => to_dict_no_keywords c :: to_dict_no_keywords_list cs

end

/-- A sequence of successful child validations has no first error. -/
theorem firstError_ok_of_forall : ∀ l : List (Except VError Unit),
    (∀ x ∈ l, x = .ok ()) → firstError l = .ok () := by
  intro l h
  induction l with
  | nil => rfl
  | cons x rest ih =>
    rw [h x (List.mem_cons_self x rest)]
    exact ih (fun y hy => h y (List.mem_cons_of_mem x hy))

/-- Every member of a keyword-free serialized children list is the
keyword-free serialization of a member of the children list. -/
theorem mem_to_dict_no_keywords_list : ∀ (cs : List MindMap) (x : JValue),
    x ∈ to_dict_no_keywords_list cs → ∃ c, c ∈ cs ∧ x = to_dict_no_keywords c := by
  intro cs
  induction cs with
  | nil => intro x h; cases h
  | cons c cs ih =>
    intro x h
    have hstep : to_dict_no_keywords_list (c :: cs) =
        to_dict_no_keywords c :: to_dict_no_keywords_list cs := rfl
    rw [hstep] at h
    rcases List.mem_cons.mp h with h1 | h2
    · exact ⟨c, List.mem_cons_self c cs, h1⟩
    · obtain ⟨c2, hm, hx⟩ := ih x h2
      exact ⟨c2, List.mem_cons_of_mem c hm, hx⟩

/-- The keyword-free export of every tree passes the structural validator at
every path and at every sufficient fuel. -/
theorem validate_no_keywords_ok :
    ∀ (n : Nat) (T : MindMap) (path : String),
      sizeJ (to_dict_no_keywords T) < n →
      validate_node_fuel n (to_dict_no_keywords T) path = .ok () := by
  intro n
  induction n using Nat.strong_induction_on with
  | _ n ih =>
    intro T path hsz
    obtain ⟨l, nd, s, cs, ks⟩ := T
    have hpos := sizeJ_pos (to_dict_no_keywords (.mk l nd s cs ks))
    obtain ⟨m, rfl⟩ : ∃ m, n = m + 1 := ⟨n - 1, by omega⟩
    have hstep : validate_node_fuel (m + 1) (to_dict_no_keywords (.mk l nd s cs ks)) path =
        firstError ((to_dict_no_keywords_list cs).enum.map (fun ic =>
          validate_node_fuel m ic.2 (extendPath path ic.1))) := rfl
    have hsz2 : sizeJ (to_dict_no_keywords (.mk l nd s cs ks)) =
        1 + (1 + (1 + (1 + ((1 + sizeJL (to_dict_no_keywords_list cs)) + 0)))) := rfl
    rw [hstep]
    apply firstError_ok_of_forall
    intro x hx
    rw [List.mem_map] at hx
    obtain ⟨⟨i, y⟩, hmem, rfl⟩ := hx
    obtain ⟨hilt, hy⟩ := List.mem_enum hmem
    have hymem : y ∈ to_dict_no_keywords_list cs := by
      rw [hy]; exact List.getElem_mem hilt
    obtain ⟨c, hcmem, rfl⟩ := mem_to_dict_no_keywords_list cs y hymem
    have hle := sizeJ_le_sizeJL hymem
    exact ih m (by omega) c _ (by omega)

/-- C2 counterexample — the claim that a tree's serialized export passes the
§4.3 parse/validate pipeline is false: the export of the one-node tree
`MindMap("A", 1, "s")` is rejected by `validate_node` because the serializer
emits a `keywords` key and the validator's `allowed_keys` set is only
`{label, node, summary, children}`. -/
theorem C2_counterexample :
    validate_node (dict_keys_to_lowercase_deep
        (MindMap.to_dict (.mk "A" 1 "s" [] []))) "root" =
      .error (.illegalKeys ["keywords"] "root") := rfl

/-- C2 amended — the serialized export does not conform to the validator's
schema: for every tree the pipeline (deep key-lowering, then `validate_node`)
rejects the export with an illegal-key error naming exactly `keywords` at the
starting path; the export conforms only after the `keywords` entries are
removed at every depth, in which case validation succeeds. -/
theorem C2_export_fails_validator_only_for_keywords :
    ∀ (T : MindMap) (path : String),
      validate_node (dict_keys_to_lowercase_deep (MindMap.to_dict T)) path =
        .error (.illegalKeys ["keywords"] path)
      ∧ validate_node (to_dict_no_keywords T) path = .ok () := by
  intro T path
  constructor
  · rw [dict_keys_to_lowercase_deep_to_dict T]
    obtain ⟨l, nd, s, cs, ks⟩ := T
    rfl
  · exact validate_no_keywords_ok _ T path (by omega)

/-- Validation is fuel-invariant above the value's size: any two sufficient
fuels give the same verdict. -/
theorem validate_node_fuel_congr :
    ∀ (n : Nat) (v : JValue) (path : String) (m : Nat),
      sizeJ v < n → sizeJ v < m →
      validate_node_fuel n v path = validate_node_fuel m v path := by
  intro n
  induction n using Nat.strong_induction_on with
  | _ n ih =>
    intro v path m hn hm
    have hvpos := sizeJ_pos v
    obtain ⟨n2, rfl⟩ : ∃ n2, n = n2 + 1 := ⟨n - 1, by omega⟩
    obtain ⟨m2, rfl⟩ : ∃ m2, m = m2 + 1 := ⟨m - 1, by omega⟩
    cases v with
    | str s => rfl
    | int i => rfl
    | null => rfl
    | arr xs => rfl
    | obj kvs =>
      simp only [validate_node_fuel]
      by_cases hil : ((kvs.map Prod.fst).filter
          (fun k => !(allowed_keys.contains k))).isEmpty
      · simp only [hil, if_true]
        cases hfind : allowed_keys.find? (fun k =>
            match kvs.lookup k with
            | none => true
            | some .null => true
            | some _ => false) with
        | some k => rfl
        | none =>
          simp only [hfind]
          cases hlk : kvs.lookup "children" with
          | none => rfl
          | some v2 =>
            cases v2 with
            | arr cs =>
              simp only [hlk]
              congr 1
              apply List.map_congr_left
              intro ic hic
              obtain ⟨hlt, heq⟩ := List.mem_enum hic
              have hmem : ic.2 ∈ cs := by rw [heq]; exact List.getElem_mem hlt
              have hcl : sizeJ ic.2 < sizeJ (JValue.obj kvs) := sizeJ_child_lt hlk hmem
              exact ih n2 (by omega) ic.2 (extendPath path ic.1) m2 (by omega) (by omega)
            | str s => rfl
            | int i => rfl
            | null => rfl
            | obj kvs2 => rfl
      · simp only [hil, Bool.false_eq_true, if_false]

/-- If the children before index `i` validate successfully and child `i`
fails with `e`, the children sweep reports `e`. -/
theorem firstError_enumFrom_error (g : Nat → JValue → Except VError Unit) :
    ∀ (cs : List JValue) (start i : Nat) (c : JValue) (e : VError),
      cs.get? i = some c →
      (∀ j, j < i → ∃ cj, cs.get? j = some cj ∧ g (start + j) cj = .ok ()) →
      g (start + i) c = .error e →
      firstError ((cs.enumFrom start).map (fun ic => g ic.1 ic.2)) = .error e := by
  intro cs
  induction cs with
  | nil =>
    intro start i c e hget _ _
    simp at hget
  | cons c0 rest ih =>
    intro start i c e hget hok herr
    have hstep : (List.enumFrom start (c0 :: rest)).map (fun ic => g ic.1 ic.2) =
        g start c0 :: (List.enumFrom (start + 1) rest).map (fun ic => g ic.1 ic.2) := rfl
    rw [hstep]
    cases i with
    | zero =>
      have hc : c0 = c := by
        have h2 : (c0 :: rest).get? 0 = some c0 := rfl
        rw [h2] at hget
        injection hget
      subst hc
      simp only [Nat.add_zero] at herr
      rw [herr]
      rfl
    | succ i2 =>
      obtain ⟨cj, hgj, hgok⟩ := hok 0 (Nat.succ_pos i2)
      have hcj : cj = c0 := by
        have h2 : (c0 :: rest).get? 0 = some c0 := rfl
        rw [h2] at hgj
        injection hgj with h3
        exact h3.symm
      subst hcj
      simp only [Nat.add_zero] at hgok
      rw [hgok]
      show firstError ((List.enumFrom (start + 1) rest).map (fun ic => g ic.1 ic.2)) = .error e
      apply ih (start + 1) i2 c e hget
      · intro j hj
        obtain ⟨cj2, hg2, hok2⟩ := hok (j + 1) (Nat.succ_lt_succ hj)
        refine ⟨cj2, hg2, ?_⟩
        have harith : start + 1 + j = start + (j + 1) := by omega
        rw [harith]
        exact hok2
      · have harith : start + 1 + i2 = start + (i2 + 1) := by omega
        rw [harith]
        exact herr

/-- C9 — validator path reporting: the example input whose first child lacks
`node` fails with a schema error naming the missing key `node` at path
`root -> children[0]`; and in general, when a node's own checks pass, the
error of the first failing child — validated at the path extended by its
index — is the error the node reports, at any depth and index. -/
theorem C9_validator_path_reporting :
    (validate_node (.obj [("label", .str "A"), ("node", .int 1),
        ("summary", .str "s"),
        ("children", .arr [.obj [("label", .str "B"), ("summary", .str "s2"),
          ("children", .arr [])]])]) "root" =
      .error (.missingOrNull "node" "root -> children[0]"))
    ∧ ∀ (kvs : List (String × JValue)) (path : String) (cs : List JValue)
        (i : Nat) (c : JValue) (e : VError),
        ((kvs.map Prod.fst).filter (fun k => !(allowed_keys.contains k))).isEmpty = true →
        allowed_keys.find? (fun k =>
          match kvs.lookup k with
          | none => true
          | some .null => true
          | some _ => false) = none →
        kvs.lookup "children" = some (.arr cs) →
        cs.get? i = some c →
        (∀ j, j < i → ∃ cj, cs.get? j = some cj ∧
          validate_node cj (extendPath path j) = .ok ()) →
        validate_node c (extendPath path i) = .error e →
        validate_node (.obj kvs) path = .error e := by
  constructor
  · rfl
  intro kvs path cs i c e hil hfind hlk hget hok herr
  unfold validate_node
  have hpos := sizeJ_pos (JValue.obj kvs)
  obtain ⟨m, hm⟩ : ∃ m, sizeJ (JValue.obj kvs) + 1 = m + 1 := ⟨sizeJ (JValue.obj kvs), rfl⟩
  rw [hm]
  simp only [validate_node_fuel, hil, if_true, hfind, hlk]
  have henum : cs.enum = cs.enumFrom 0 := rfl
  rw [henum]
  apply firstError_enumFrom_error
    (fun idx v => validate_node_fuel m v (extendPath path idx)) cs 0 i c e hget
  · intro j hj
    obtain ⟨cj, hgj, hokj⟩ := hok j hj
    refine ⟨cj, hgj, ?_⟩
    have hmem : cj ∈ cs := List.get?_mem hgj
    have hcl : sizeJ cj < sizeJ (JValue.obj kvs) := sizeJ_child_lt hlk hmem
    have hcongr := validate_node_fuel_congr (sizeJ cj + 1) cj (extendPath path j) m
      (by omega) (by omega)
    simp only [Nat.zero_add]
    rw [← hcongr]
    exact hokj
  · have hmem : c ∈ cs := List.get?_mem hget
    have hcl : sizeJ c < sizeJ (JValue.obj kvs) := sizeJ_child_lt hlk hmem
    have hcongr := validate_node_fuel_congr (sizeJ c + 1) c (extendPath path i) m
      (by omega) (by omega)
    simp only [Nat.zero_add]
    rw [← hcongr]
    exact herr

/-- C9 witness: the general child-error propagation applied to the concrete
example — missing `node` on the first child is reported at
`root -> children[0]`. -/
theorem C9_validator_path_reporting_witness :
    validate_node (.obj [("label", .str "A"), ("node", .int 1),
        ("summary", .str "s"),
        ("children", .arr [.obj [("label", .str "B"), ("summary", .str "s2"),
          ("children", .arr [])]])]) "root" =
      .error (.missingOrNull "node" "root -> children[0]") :=
  C9_validator_path_reporting.2
    [("label", .str "A"), ("node", .int 1), ("summary", .str "s"),
      ("children", .arr [.obj [("label", .str "B"), ("summary", .str "s2"),
        ("children", .arr [])]])]
    "root"
    [.obj [("label", .str "B"), ("summary", .str "s2"), ("children", .arr [])]]
    0 (.obj [("label", .str "B"), ("summary", .str "s2"), ("children", .arr [])])
    (.missingOrNull "node" "root -> children[0]")
    rfl rfl rfl rfl (fun j hj => absurd hj (by omega)) rfl

mutual

/-- Two values differ at most in the case of their mapping keys: same shape,
same leaves, and corresponding keys equal after lower-casing, at every depth. -/
def keyCaseVariant : JValue → JValue → Bool
  | .str a, .str b => a == b
  | .int a, .int b => a == b
  | .null, .null => true
  | .arr xs, .arr ys => keyCaseVariantL xs ys
  | .obj kvs, .obj kvs2 => keyCaseVariantO kvs kvs2
  | _, _ => false

/-- Pointwise `keyCaseVariant` on lists. -/
def keyCaseVariantL : List JValue → List JValue → Bool
  | [], [] => true
  | x :: xs, y :: ys => keyCaseVariant x y && keyCaseVariantL xs ys
  | _, _ => false

/-- Pointwise `keyCaseVariant` on dict entries: keys equal up to case, values
related. -/
def keyCaseVariantO : List (String × JValue) → List (String × JValue) → Bool
  | [], [] => true
  | (k, v) :: r, (k2, v2) :: r2 =>
    (pyLower k == pyLower k2) && keyCaseVariant v v2 && keyCaseVariantO r r2
  | _, _ => false

end

/-- Pointwise deep-lowering congruence on lists, given element congruence. -/
theorem lowerListDeep_congr : ∀ (xs ys : List JValue),
    keyCaseVariantL xs ys = true →
    (∀ x y, x ∈ xs → keyCaseVariant x y = true →
      dict_keys_to_lowercase_deep x = dict_keys_to_lowercase_deep y) →
    lowerListDeep xs = lowerListDeep ys := by
  intro xs
  induction xs with
  | nil =>
    intro ys h _
    cases ys with
    | nil => rfl
    | cons y ys => exact absurd h (by simp [keyCaseVariantL])
  | cons x xs ih =>
    intro ys h hcong
    cases ys with
    | nil => exact absurd h (by simp [keyCaseVariantL])
    | cons y ys =>
      have hsplit : keyCaseVariant x y = true ∧ keyCaseVariantL xs ys = true := by
        have hstep : keyCaseVariantL (x :: xs) (y :: ys) =
            (keyCaseVariant x y && keyCaseVariantL xs ys) := rfl
        rw [hstep] at h
        exact ⟨(Bool.and_eq_true _ _ |>.mp h).1, (Bool.and_eq_true _ _ |>.mp h).2⟩
      have hstep2 : lowerListDeep (x :: xs) =
          dict_keys_to_lowercase_deep x :: lowerListDeep xs := rfl
      have hstep3 : lowerListDeep (y :: ys) =
          dict_keys_to_lowercase_deep y :: lowerListDeep ys := rfl
      rw [hstep2, hstep3,
        hcong x y (List.mem_cons_self x xs) hsplit.1,
        ih ys hsplit.2 (fun a b ha => hcong a b (List.mem_cons_of_mem x ha))]

/-- Pointwise deep-lowering congruence on entries, given value congruence. -/
theorem lowerEntriesDeep_congr : ∀ (kvs kvs2 : List (String × JValue)),
    keyCaseVariantO kvs kvs2 = true →
    (∀ v v2, (∃ k, (k, v) ∈ kvs) → keyCaseVariant v v2 = true →
      dict_keys_to_lowercase_deep v = dict_keys_to_lowercase_deep v2) →
    lowerEntriesDeep kvs = lowerEntriesDeep kvs2 := by
  intro kvs
  induction kvs with
  | nil =>
    intro kvs2 h _
    cases kvs2 with
    | nil => rfl
    | cons e r => obtain ⟨k2, v2⟩ := e; exact absurd h (by simp [keyCaseVariantO])
  | cons e r ih =>
    intro kvs2 h hcong
    obtain ⟨k, v⟩ := e
    cases kvs2 with
    | nil => exact absurd h (by simp [keyCaseVariantO])
    | cons e2 r2 =>
      obtain ⟨k2, v2⟩ := e2
      have hstep : keyCaseVariantO ((k, v) :: r) ((k2, v2) :: r2) =
          ((pyLower k == pyLower k2) && keyCaseVariant v v2 &&
            keyCaseVariantO r r2) := rfl
      rw [hstep] at h
      obtain ⟨h12, h3⟩ := Bool.and_eq_true _ _ |>.mp h
      obtain ⟨h1, h2⟩ := Bool.and_eq_true _ _ |>.mp h12
      have hk : pyLower k = pyLower k2 := by
        exact eq_of_beq h1
      have hstep2 : lowerEntriesDeep ((k, v) :: r) =
          (pyLower k, dict_keys_to_lowercase_deep v) :: lowerEntriesDeep r := rfl
      have hstep3 : lowerEntriesDeep ((k2, v2) :: r2) =
          (pyLower k2, dict_keys_to_lowercase_deep v2) :: lowerEntriesDeep r2 := rfl
      rw [hstep2, hstep3, hk,
        hcong v v2 ⟨k, List.mem_cons_self _ _⟩ h2,
        ih r2 h3 (fun a b ⟨ka, hka⟩ hab =>
          hcong a b ⟨ka, List.mem_cons_of_mem _ hka⟩ hab)]

/-- A dict entry's value is no larger than the entry list's total size. -/
theorem sizeJ_le_sizeJO_of_mem : ∀ {kvs : List (String × JValue)} {k : String}
    {v : JValue}, (k, v) ∈ kvs → sizeJ v ≤ sizeJO kvs := by
  intro kvs k v h
  induction kvs with
  | nil => cases h
  | cons e rest ih =>
    obtain ⟨k2, v2⟩ := e
    have hstep : sizeJO ((k2, v2) :: rest) = sizeJ v2 + sizeJO rest := rfl
    rcases List.mem_cons.mp h with h1 | h2
    · injection h1 with ha hb
      subst hb
      omega
    · have := ih h2
      omega

/-- Deep key-lowering identifies key-case variants: related inputs lower to
the same value. -/
theorem deep_lower_congr_kcv : ∀ (n : Nat) (v v2 : JValue), sizeJ v ≤ n →
    keyCaseVariant v v2 = true →
    dict_keys_to_lowercase_deep v = dict_keys_to_lowercase_deep v2 := by
  intro n
  induction n using Nat.strong_induction_on with
  | _ n ih =>
    intro v v2 hsz hkcv
    cases v with
    | str a =>
      cases v2 <;> (try exact Bool.noConfusion hkcv)
      case str b =>
        have : a = b := eq_of_beq hkcv
        rw [this]
    | int a =>
      cases v2 <;> (try exact Bool.noConfusion hkcv)
      case int b =>
        have : a = b := eq_of_beq hkcv
        rw [this]
    | null =>
      cases v2 <;> (try exact Bool.noConfusion hkcv)
      case null => rfl
    | arr xs =>
      cases v2 <;> (try exact Bool.noConfusion hkcv)
      case arr ys =>
        have hstep : dict_keys_to_lowercase_deep (JValue.arr xs) =
            .arr (lowerListDeep xs) := rfl
        have hstep2 : dict_keys_to_lowercase_deep (JValue.arr ys) =
            .arr (lowerListDeep ys) := rfl
        have hsz2 : sizeJ (JValue.arr xs) = 1 + sizeJL xs := rfl
        rw [hstep, hstep2, lowerListDeep_congr xs ys hkcv (fun x y hx hxy => by
          have hle := sizeJ_le_sizeJL hx
          exact ih (n - 1) (by omega) x y (by omega) hxy)]
    | obj kvs =>
      cases v2 <;> (try exact Bool.noConfusion hkcv)
      case obj kvs2 =>
        have hstep : dict_keys_to_lowercase_deep (JValue.obj kvs) =
            .obj (pyDictOfEntries (lowerEntriesDeep kvs)) := rfl
        have hstep2 : dict_keys_to_lowercase_deep (JValue.obj kvs2) =
            .obj (pyDictOfEntries (lowerEntriesDeep kvs2)) := rfl
        have hsz2 : sizeJ (JValue.obj kvs) = 1 + sizeJO kvs := rfl
        rw [hstep, hstep2, lowerEntriesDeep_congr kvs kvs2 hkcv
          (fun a b ⟨ka, hka⟩ hab => by
            have hle := sizeJ_le_sizeJO_of_mem hka
            exact ih (n - 1) (by omega) a b (by omega) hab)]

/-- Entry lists with equal keys and case-variant values, pointwise. -/
def eqKeysKCVO : List (String × JValue) → List (String × JValue) → Bool
  | [], [] => true
  | (k, v) :: r, (k2, v2) :: r2 =>
    (k == k2) && keyCaseVariant v v2 && eqKeysKCVO r r2
  | _, _ => false

/-- Dict assignment preserves the equal-keys case-variant relation. -/
theorem pyDictSet_congr : ∀ (acc acc2 : List (String × JValue)) (k : String)
    (v v2 : JValue), eqKeysKCVO acc acc2 = true → keyCaseVariant v v2 = true →
    eqKeysKCVO (pyDictSet acc k v) (pyDictSet acc2 k v2) = true := by
  intro acc
  induction acc with
  | nil =>
    intro acc2 k v v2 hacc hv
    cases acc2 with
    | nil => simp [pyDictSet, eqKeysKCVO, hv]
    | cons e r => obtain ⟨k2, w2⟩ := e; exact Bool.noConfusion hacc
  | cons e r ih =>
    intro acc2 k v v2 hacc hv
    obtain ⟨k1, w1⟩ := e
    cases acc2 with
    | nil => exact Bool.noConfusion hacc
    | cons e2 r2 =>
      obtain ⟨k1b, w1b⟩ := e2
      have hstep : eqKeysKCVO ((k1, w1) :: r) ((k1b, w1b) :: r2) =
          ((k1 == k1b) && keyCaseVariant w1 w1b && eqKeysKCVO r r2) := rfl
      rw [hstep] at hacc
      obtain ⟨h12, h3⟩ := Bool.and_eq_true _ _ |>.mp hacc
      obtain ⟨h1, h2⟩ := Bool.and_eq_true _ _ |>.mp h12
      have hk : k1 = k1b := eq_of_beq h1
      subst hk
      by_cases hkk : k1 = k
      · subst hkk
        simp [pyDictSet, eqKeysKCVO, hv, h2, h3]
      · have hs1 : pyDictSet ((k1, w1) :: r) k v =
            (k1, w1) :: pyDictSet r k v := by
          simp [pyDictSet, hkk]
        have hs2 : pyDictSet ((k1, w1b) :: r2) k v2 =
            (k1, w1b) :: pyDictSet r2 k v2 := by
          simp [pyDictSet, hkk]
        rw [hs1, hs2]
        have hrec := ih r2 k v v2 h3 hv
        simp [eqKeysKCVO, h2, hrec]

/-- Folding dict assignments preserves the equal-keys case-variant relation. -/
theorem foldl_pyDictSet_congr : ∀ (l l2 acc acc2 : List (String × JValue)),
    eqKeysKCVO l l2 = true → eqKeysKCVO acc acc2 = true →
    eqKeysKCVO (l.foldl (fun a e => pyDictSet a e.1 e.2) acc)
      (l2.foldl (fun a e => pyDictSet a e.1 e.2) acc2) = true := by
  intro l
  induction l with
  | nil =>
    intro l2 acc acc2 hl hacc
    cases l2 with
    | nil => exact hacc
    | cons e r => obtain ⟨k2, w2⟩ := e; exact Bool.noConfusion hl
  | cons e r ih =>
    intro l2 acc acc2 hl hacc
    obtain ⟨k1, w1⟩ := e
    cases l2 with
    | nil => exact Bool.noConfusion hl
    | cons e2 r2 =>
      obtain ⟨k1b, w1b⟩ := e2
      have hstep : eqKeysKCVO ((k1, w1) :: r) ((k1b, w1b) :: r2) =
          ((k1 == k1b) && keyCaseVariant w1 w1b && eqKeysKCVO r r2) := rfl
      rw [hstep] at hl
      obtain ⟨h12, h3⟩ := Bool.and_eq_true _ _ |>.mp hl
      obtain ⟨h1, h2⟩ := Bool.and_eq_true _ _ |>.mp h12
      have hk : k1 = k1b := eq_of_beq h1
      subst hk
      simp only [List.foldl_cons]
      exact ih r2 _ _ h3 (pyDictSet_congr acc acc2 k1 w1 w1b hacc h2)

/-- Equal-keys case-variant entries stay related under lower-casing: the keys
become equal and related dict values recurse. -/
theorem eqKeysKCVO_to_kcvO : ∀ (l l2 : List (String × JValue)),
    eqKeysKCVO l l2 = true → keyCaseVariantO l l2 = true := by
  intro l
  induction l with
  | nil =>
    intro l2 h
    cases l2 with
    | nil => rfl
    | cons e r => obtain ⟨k2, w2⟩ := e; exact Bool.noConfusion h
  | cons e r ih =>
    intro l2 h
    obtain ⟨k1, w1⟩ := e
    cases l2 with
    | nil => exact Bool.noConfusion h
    | cons e2 r2 =>
      obtain ⟨k1b, w1b⟩ := e2
      have hstep : eqKeysKCVO ((k1, w1) :: r) ((k1b, w1b) :: r2) =
          ((k1 == k1b) && keyCaseVariant w1 w1b && eqKeysKCVO r r2) := rfl
      rw [hstep] at h
      obtain ⟨h12, h3⟩ := Bool.and_eq_true _ _ |>.mp h
      obtain ⟨h1, h2⟩ := Bool.and_eq_true _ _ |>.mp h12
      have hk : k1 = k1b := eq_of_beq h1
      subst hk
      have hstep2 : keyCaseVariantO ((k1, w1) :: r) ((k1, w1b) :: r2) =
          ((pyLower k1 == pyLower k1) && keyCaseVariant w1 w1b &&
            keyCaseVariantO r r2) := rfl
      rw [hstep2]
      simp [h2, ih r2 h3]

/-- The shallow key-lowering loop sends case-variant entries to equal-keys
case-variant entries, given value congruence. -/
theorem lowerEntriesShallow_congr : ∀ (kvs kvs2 : List (String × JValue)),
    keyCaseVariantO kvs kvs2 = true →
    (∀ v v2, (∃ k, (k, v) ∈ kvs) → keyCaseVariant v v2 = true →
      keyCaseVariant (lowerShallowVal v) (lowerShallowVal v2) = true) →
    eqKeysKCVO (lowerEntriesShallow kvs) (lowerEntriesShallow kvs2) = true := by
  intro kvs
  induction kvs with
  | nil =>
    intro kvs2 h _
    cases kvs2 with
    | nil => rfl
    | cons e r => obtain ⟨k2, w2⟩ := e; exact Bool.noConfusion h
  | cons e r ih =>
    intro kvs2 h hcong
    obtain ⟨k1, w1⟩ := e
    cases kvs2 with
    | nil => exact Bool.noConfusion h
    | cons e2 r2 =>
      obtain ⟨k1b, w1b⟩ := e2
      have hstep : keyCaseVariantO ((k1, w1) :: r) ((k1b, w1b) :: r2) =
          ((pyLower k1 == pyLower k1b) && keyCaseVariant w1 w1b &&
            keyCaseVariantO r r2) := rfl
      rw [hstep] at h
      obtain ⟨h12, h3⟩ := Bool.and_eq_true _ _ |>.mp h
      obtain ⟨h1, h2⟩ := Bool.and_eq_true _ _ |>.mp h12
      have hstep2 : lowerEntriesShallow ((k1, w1) :: r) =
          (pyLower k1, lowerShallowVal w1) :: lowerEntriesShallow r := rfl
      have hstep3 : lowerEntriesShallow ((k1b, w1b) :: r2) =
          (pyLower k1b, lowerShallowVal w1b) :: lowerEntriesShallow r2 := rfl
      rw [hstep2, hstep3]
      have hval := hcong w1 w1b ⟨k1, List.mem_cons_self _ _⟩ h2
      have hrec := ih r2 h3 (fun a b ⟨ka, hka⟩ hab =>
        hcong a b ⟨ka, List.mem_cons_of_mem _ hka⟩ hab)
      simp [eqKeysKCVO, h1, hval, hrec]

/-- `lowerShallowVal` preserves the case-variant relation. -/
theorem lowerShallowVal_congr : ∀ (n : Nat) (v v2 : JValue), sizeJ v ≤ n →
    keyCaseVariant v v2 = true →
    keyCaseVariant (lowerShallowVal v) (lowerShallowVal v2) = true := by
  intro n
  induction n using Nat.strong_induction_on with
  | _ n ih =>
    intro v v2 hsz hkcv
    cases v <;> cases v2 <;> try exact Bool.noConfusion hkcv
    case str.str a b => exact hkcv
    case int.int a b => exact hkcv
    case null.null => exact hkcv
    case arr.arr xs ys => exact hkcv
    case obj.obj kvs kvs2 =>
      have hstep : lowerShallowVal (JValue.obj kvs) =
          .obj (pyDictOfEntries (lowerEntriesShallow kvs)) := rfl
      have hstep2 : lowerShallowVal (JValue.obj kvs2) =
          .obj (pyDictOfEntries (lowerEntriesShallow kvs2)) := rfl
      rw [hstep, hstep2]
      have hsz2 : sizeJ (JValue.obj kvs) = 1 + sizeJO kvs := rfl
      have hent := lowerEntriesShallow_congr kvs kvs2 hkcv
        (fun a b ⟨ka, hka⟩ hab => by
          have hle := sizeJ_le_sizeJO_of_mem hka
          exact ih (n - 1) (by omega) a b (by omega) hab)
      exact eqKeysKCVO_to_kcvO _ _
        (foldl_pyDictSet_congr _ _ [] [] hent rfl)

/-- The builder's key-lowering sends case-variant dicts to equal-keys
case-variant dicts. -/
theorem dict_keys_to_lowercase_congr : ∀ (kvs kvs2 : List (String × JValue)),
    keyCaseVariantO kvs kvs2 = true →
    eqKeysKCVO (dict_keys_to_lowercase kvs) (dict_keys_to_lowercase kvs2) = true := by
  intro kvs kvs2 h
  exact foldl_pyDictSet_congr _ _ [] []
    (lowerEntriesShallow_congr kvs kvs2 h
      (fun a b _ hab => lowerShallowVal_congr (sizeJ a) a b (Nat.le_refl _) hab))
    rfl

/-- Related dicts have the same keys. -/
theorem all_keys_congr : ∀ (l l2 : List (String × JValue)) (p : String → Bool),
    eqKeysKCVO l l2 = true →
    (l.all (fun e => p e.1)) = (l2.all (fun e => p e.1)) := by
  intro l
  induction l with
  | nil =>
    intro l2 p h
    cases l2 with
    | nil => rfl
    | cons e r => obtain ⟨k2, w2⟩ := e; exact Bool.noConfusion h
  | cons e r ih =>
    intro l2 p h
    obtain ⟨k1, w1⟩ := e
    cases l2 with
    | nil => exact Bool.noConfusion h
    | cons e2 r2 =>
      obtain ⟨k1b, w1b⟩ := e2
      have hstep : eqKeysKCVO ((k1, w1) :: r) ((k1b, w1b) :: r2) =
          ((k1 == k1b) && keyCaseVariant w1 w1b && eqKeysKCVO r r2) := rfl
      rw [hstep] at h
      obtain ⟨h12, h3⟩ := Bool.and_eq_true _ _ |>.mp h
      obtain ⟨h1, h2⟩ := Bool.and_eq_true _ _ |>.mp h12
      have hk : k1 = k1b := eq_of_beq h1
      subst hk
      simp [List.all_cons, ih r2 p h3]

/-- Related dicts look up to related values. -/
theorem lookup_congr_eqKeys : ∀ (l l2 : List (String × JValue)) (k : String),
    eqKeysKCVO l l2 = true →
    (l.lookup k = none ∧ l2.lookup k = none) ∨
    (∃ v v2, l.lookup k = some v ∧ l2.lookup k = some v2 ∧
      keyCaseVariant v v2 = true) := by
  intro l
  induction l with
  | nil =>
    intro l2 k h
    cases l2 with
    | nil => exact Or.inl ⟨rfl, rfl⟩
    | cons e r => obtain ⟨k2, w2⟩ := e; exact Bool.noConfusion h
  | cons e r ih =>
    intro l2 k h
    obtain ⟨k1, w1⟩ := e
    cases l2 with
    | nil => exact Bool.noConfusion h
    | cons e2 r2 =>
      obtain ⟨k1b, w1b⟩ := e2
      have hstep : eqKeysKCVO ((k1, w1) :: r) ((k1b, w1b) :: r2) =
          ((k1 == k1b) && keyCaseVariant w1 w1b && eqKeysKCVO r r2) := rfl
      rw [hstep] at h
      obtain ⟨h12, h3⟩ := Bool.and_eq_true _ _ |>.mp h
      obtain ⟨h1, h2⟩ := Bool.and_eq_true _ _ |>.mp h12
      have hk : k1 = k1b := eq_of_beq h1
      subst hk
      by_cases hkk : k == k1
      · refine Or.inr ⟨w1, w1b, ?_, ?_, h2⟩
        · rw [List.lookup_cons]; simp [hkk]
        · rw [List.lookup_cons]; simp [hkk]
      · have hl1 : ((k1, w1) :: r).lookup k = r.lookup k := by
          rw [List.lookup_cons]; simp [hkk]
        have hl2 : ((k1, w1b) :: r2).lookup k = r2.lookup k := by
          rw [List.lookup_cons]; simp [hkk]
        rw [hl1, hl2]
        exact ih r2 k h3

/-- Related keyword arrays extract to the same string list. -/
theorem strListOfJ_congr : ∀ (xs ys : List JValue),
    keyCaseVariantL xs ys = true → strListOfJ xs = strListOfJ ys := by
  intro xs
  induction xs with
  | nil =>
    intro ys h
    cases ys with
    | nil => rfl
    | cons y ys => exact Bool.noConfusion h
  | cons x xs ih =>
    intro ys h
    cases ys with
    | nil => exact Bool.noConfusion h
    | cons y ys =>
      have hstep : keyCaseVariantL (x :: xs) (y :: ys) =
          (keyCaseVariant x y && keyCaseVariantL xs ys) := rfl
      rw [hstep] at h
      obtain ⟨h1, h2⟩ := Bool.and_eq_true _ _ |>.mp h
      cases x <;> cases y <;> try exact Bool.noConfusion h1
      case str.str a b =>
        have : a = b := eq_of_beq h1
        subst this
        have hs1 : strListOfJ (JValue.str a :: xs) =
            (strListOfJ xs).map (fun l => a :: l) := rfl
        have hs2 : strListOfJ (JValue.str a :: ys) =
            (strListOfJ ys).map (fun l => a :: l) := rfl
        rw [hs1, hs2, ih ys h2]
      case int.int a b => rfl
      case null.null => rfl
      case arr.arr a b => rfl
      case obj.obj a b => rfl

/-- Rebuilding case-variant children lists gives the same result, given
element congruence. -/
theorem mapM_congr_kcvL (f : JValue → Option MindMap) :
    ∀ (xs ys : List JValue), keyCaseVariantL xs ys = true →
      (∀ x y, x ∈ xs → keyCaseVariant x y = true → f x = f y) →
      xs.mapM f = ys.mapM f := by
  intro xs
  induction xs with
  | nil =>
    intro ys h _
    cases ys with
    | nil => rfl
    | cons y ys => exact Bool.noConfusion h
  | cons x xs ih =>
    intro ys h hcong
    cases ys with
    | nil => exact Bool.noConfusion h
    | cons y ys =>
      have hstep : keyCaseVariantL (x :: xs) (y :: ys) =
          (keyCaseVariant x y && keyCaseVariantL xs ys) := rfl
      rw [hstep] at h
      obtain ⟨h1, h2⟩ := Bool.and_eq_true _ _ |>.mp h
      rw [List.mapM_cons, List.mapM_cons,
        hcong x y (List.mem_cons_self x xs) h1,
        ih ys h2 (fun a b ha => hcong a b (List.mem_cons_of_mem x ha))]

/-- The tree builder identifies key-case variants at every fuel: its own
recursive key-lowering makes the construction case-insensitive. -/
theorem from_dict_fuel_congr_kcv :
    ∀ (fuel : Nat) (v v2 : JValue), keyCaseVariant v v2 = true →
      from_dict_fuel fuel v = from_dict_fuel fuel v2 := by
  intro fuel
  induction fuel with
  | zero => intro v v2 _; rfl
  | succ m ih =>
    intro v v2 hkcv
    cases v <;> cases v2 <;> try exact Bool.noConfusion hkcv
    case str.str a b => rfl
    case int.int a b => rfl
    case null.null => rfl
    case arr.arr xs ys => rfl
    case obj.obj kvs kvs2 =>
      have htd := dict_keys_to_lowercase_congr kvs kvs2 hkcv
      simp only [from_dict_fuel]
      rw [all_keys_congr (dict_keys_to_lowercase kvs) (dict_keys_to_lowercase kvs2)
        (fun k => ["label", "node", "summary", "children", "keywords"].contains k) htd]
      by_cases hall : ((dict_keys_to_lowercase kvs2).all (fun e =>
          ["label", "node", "summary", "children", "keywords"].contains e.1)) = true
      swap
      · rw [if_neg hall, if_neg hall]
      rw [if_pos hall, if_pos hall]
      rcases lookup_congr_eqKeys _ _ "label" htd with ⟨hl1, hl2⟩ | ⟨vl, vl2, hl1, hl2, hvl⟩
      · simp only [hl1, hl2]
      cases vl <;> cases vl2 <;> first | exact Bool.noConfusion hvl | simp only [hl1, hl2]
      rename_i la lb
      have hlab : la = lb := eq_of_beq hvl
      subst hlab
      rcases lookup_congr_eqKeys _ _ "node" htd with ⟨hn1, hn2⟩ | ⟨vn, vn2, hn1, hn2, hvn⟩
      · simp only [hn1, hn2]
      cases vn <;> cases vn2 <;> first | exact Bool.noConfusion hvn | simp only [hn1, hn2]
      rename_i na nb
      have hnn : na = nb := eq_of_beq hvn
      subst hnn
      have hsum : (match (dict_keys_to_lowercase kvs).lookup "summary" with
          | none => some ""
          | some (.str s) => some s
          | some _ => (none : Option String)) =
          (match (dict_keys_to_lowercase kvs2).lookup "summary" with
          | none => some ""
          | some (.str s) => some s
          | some _ => none) := by
        rcases lookup_congr_eqKeys _ _ "summary" htd with ⟨h1, h2⟩ | ⟨w, w2, h1, h2, hw⟩
        · rw [h1, h2]
        · simp only [h1, h2]
          cases w <;> cases w2 <;> first | exact Bool.noConfusion hw | rfl | skip
          rename_i sa sb
          rw [eq_of_beq hw]
      have hkw : (match (dict_keys_to_lowercase kvs).lookup "keywords" with
          | none => some []
          | some (.arr ks) => strListOfJ ks
          | some _ => (none : Option (List String))) =
          (match (dict_keys_to_lowercase kvs2).lookup "keywords" with
          | none => some []
          | some (.arr ks) => strListOfJ ks
          | some _ => none) := by
        rcases lookup_congr_eqKeys _ _ "keywords" htd with ⟨h1, h2⟩ | ⟨w, w2, h1, h2, hw⟩
        · rw [h1, h2]
        · simp only [h1, h2]
          cases w <;> cases w2 <;> first | exact Bool.noConfusion hw | rfl | skip
          rename_i ka kb
          exact strListOfJ_congr ka kb hw
      have hch : ∀ (s : String) (ks : List String),
          (match (dict_keys_to_lowercase kvs).lookup "children" with
          | none => some (MindMap.mk la na s [] ks)
          | some (.arr cs) =>
            (cs.mapM (from_dict_fuel m)).map (fun cl => MindMap.mk la na s cl ks)
          | some _ => none) =
          (match (dict_keys_to_lowercase kvs2).lookup "children" with
          | none => some (MindMap.mk la na s [] ks)
          | some (.arr cs) =>
            (cs.mapM (from_dict_fuel m)).map (fun cl => MindMap.mk la na s cl ks)
          | some _ => none) := by
        intro s ks
        rcases lookup_congr_eqKeys _ _ "children" htd with ⟨h1, h2⟩ | ⟨w, w2, h1, h2, hw⟩
        · rw [h1, h2]
        · simp only [h1, h2]
          cases w <;> cases w2 <;> first | exact Bool.noConfusion hw | rfl | skip
          rename_i ca cb
          show Option.map (fun cl => MindMap.mk la na s cl ks)
              (List.mapM (from_dict_fuel m) ca) =
            Option.map (fun cl => MindMap.mk la na s cl ks)
              (List.mapM (from_dict_fuel m) cb)
          rw [mapM_congr_kcvL (from_dict_fuel m) ca cb hw
            (fun x y _ hxy => ih x y hxy)]
      simp only [hsum, hkw, hch]

/-- Pointwise size congruence on lists. -/
theorem sizeJL_congr_kcv : ∀ (xs ys : List JValue),
    keyCaseVariantL xs ys = true →
    (∀ x y, x ∈ xs → keyCaseVariant x y = true → sizeJ x = sizeJ y) →
    sizeJL xs = sizeJL ys := by
  intro xs
  induction xs with
  | nil =>
    intro ys h _
    cases ys with
    | nil => rfl
    | cons y ys => exact Bool.noConfusion h
  | cons x xs ih =>
    intro ys h hcong
    cases ys with
    | nil => exact Bool.noConfusion h
    | cons y ys =>
      have hstep : keyCaseVariantL (x :: xs) (y :: ys) =
          (keyCaseVariant x y && keyCaseVariantL xs ys) := rfl
      rw [hstep] at h
      obtain ⟨h1, h2⟩ := Bool.and_eq_true _ _ |>.mp h
      have hs1 : sizeJL (x :: xs) = sizeJ x + sizeJL xs := rfl
      have hs2 : sizeJL (y :: ys) = sizeJ y + sizeJL ys := rfl
      rw [hs1, hs2, hcong x y (List.mem_cons_self x xs) h1,
        ih ys h2 (fun a b ha => hcong a b (List.mem_cons_of_mem x ha))]

/-- Pointwise size congruence on entries. -/
theorem sizeJO_congr_kcv : ∀ (l l2 : List (String × JValue)),
    keyCaseVariantO l l2 = true →
    (∀ v v2, (∃ k, (k, v) ∈ l) → keyCaseVariant v v2 = true → sizeJ v = sizeJ v2) →
    sizeJO l = sizeJO l2 := by
  intro l
  induction l with
  | nil =>
    intro l2 h _
    cases l2 with
    | nil => rfl
    | cons e r => obtain ⟨k2, w2⟩ := e; exact Bool.noConfusion h
  | cons e r ih =>
    intro l2 h hcong
    obtain ⟨k1, w1⟩ := e
    cases l2 with
    | nil => exact Bool.noConfusion h
    | cons e2 r2 =>
      obtain ⟨k2, w2⟩ := e2
      have hstep : keyCaseVariantO ((k1, w1) :: r) ((k2, w2) :: r2) =
          ((pyLower k1 == pyLower k2) && keyCaseVariant w1 w2 &&
            keyCaseVariantO r r2) := rfl
      rw [hstep] at h
      obtain ⟨h12, h3⟩ := Bool.and_eq_true _ _ |>.mp h
      obtain ⟨h1, h2⟩ := Bool.and_eq_true _ _ |>.mp h12
      have hs1 : sizeJO ((k1, w1) :: r) = sizeJ w1 + sizeJO r := rfl
      have hs2 : sizeJO ((k2, w2) :: r2) = sizeJ w2 + sizeJO r2 := rfl
      rw [hs1, hs2, hcong w1 w2 ⟨k1, List.mem_cons_self _ _⟩ h2,
        ih r2 h3 (fun a b ⟨ka, hka⟩ hab =>
          hcong a b ⟨ka, List.mem_cons_of_mem _ hka⟩ hab)]

/-- Key-case variants have equal sizes (keys do not count toward size). -/
theorem sizeJ_congr_kcv : ∀ (n : Nat) (v v2 : JValue), sizeJ v ≤ n →
    keyCaseVariant v v2 = true → sizeJ v = sizeJ v2 := by
  intro n
  induction n using Nat.strong_induction_on with
  | _ n ih =>
    intro v v2 hsz hkcv
    cases v <;> cases v2 <;> try exact Bool.noConfusion hkcv
    case str.str a b => rfl
    case int.int a b => rfl
    case null.null => rfl
    case arr.arr xs ys =>
      have hs1 : sizeJ (JValue.arr xs) = 1 + sizeJL xs := rfl
      have hs2 : sizeJ (JValue.arr ys) = 1 + sizeJL ys := rfl
      rw [hs1, hs2, sizeJL_congr_kcv xs ys hkcv (fun x y hx hxy => by
        have hle := sizeJ_le_sizeJL hx
        exact ih (n - 1) (by omega) x y (by omega) hxy)]
    case obj.obj kvs kvs2 =>
      have hs1 : sizeJ (JValue.obj kvs) = 1 + sizeJO kvs := rfl
      have hs2 : sizeJ (JValue.obj kvs2) = 1 + sizeJO kvs2 := rfl
      rw [hs1, hs2, sizeJO_congr_kcv kvs kvs2 hkcv (fun a b ⟨ka, hka⟩ hab => by
        have hle := sizeJ_le_sizeJO_of_mem hka
        exact ih (n - 1) (by omega) a b (by omega) hab)]

/-- `MindMap.from_dict` identifies key-case variants. -/
theorem from_dict_congr_kcv (d d2 : JValue)
    (h : keyCaseVariant d d2 = true) : from_dict d = from_dict d2 := by
  unfold from_dict
  rw [sizeJ_congr_kcv (sizeJ d) d d2 (Nat.le_refl _) h]
  exact from_dict_fuel_congr_kcv _ d d2 h

/-- C8 — case-insensitivity.  Concretely: the mapping with keys `Label`,
`Node`, `Summary`, `Children` builds the same tree as its all-lower-case
variant, builds `MindMap("X", 1, "s")`, and passes the parse pipeline's
validation.  Generally: changing the case of any key at any depth
(`keyCaseVariant`) changes neither the deep-lowered dict, nor whether
validation succeeds, nor the tree the builder constructs — for the pipeline's
build on the lowered dict and for `MindMap.from_dict` on the raw dict alike. -/
theorem C8_case_insensitivity :
    (from_dict (.obj [("Label", .str "X"), ("Node", .int 1),
        ("Summary", .str "s"), ("Children", .arr [])]) =
      from_dict (.obj [("label", .str "X"), ("node", .int 1),
        ("summary", .str "s"), ("children", .arr [])])
      ∧ from_dict (.obj [("Label", .str "X"), ("Node", .int 1),
        ("Summary", .str "s"), ("Children", .arr [])]) =
          some (.mk "X" 1 "s" [] [])
      ∧ validate_node (dict_keys_to_lowercase_deep
          (.obj [("Label", .str "X"), ("Node", .int 1), ("Summary", .str "s"),
            ("Children", .arr [])])) "root" = .ok ())
    ∧ ∀ d d2, keyCaseVariant d d2 = true →
        dict_keys_to_lowercase_deep d = dict_keys_to_lowercase_deep d2
        ∧ validate_node (dict_keys_to_lowercase_deep d) "root" =
            validate_node (dict_keys_to_lowercase_deep d2) "root"
        ∧ from_dict (dict_keys_to_lowercase_deep d) =
            from_dict (dict_keys_to_lowercase_deep d2)
        ∧ from_dict d = from_dict d2 := by
  refine ⟨⟨rfl, rfl, rfl⟩, ?_⟩
  intro d d2 hkcv
  have hdeep := deep_lower_congr_kcv (sizeJ d) d d2 (Nat.le_refl _) hkcv
  exact ⟨hdeep, by rw [hdeep], by rw [hdeep], from_dict_congr_kcv d d2 hkcv⟩

/-- C8 witness: the capitalized example mapping and its lower-case variant are
key-case variants, and the general theorem instantiated at them gives equal
lowered dicts, equal validation verdicts and equal built trees. -/
theorem C8_case_insensitivity_witness :
    from_dict (.obj [("Label", .str "X"), ("Node", .int 1),
        ("Summary", .str "s"), ("Children", .arr [])]) =
      from_dict (.obj [("label", .str "X"), ("node", .int 1),
        ("summary", .str "s"), ("children", .arr [])]) :=
  (C8_case_insensitivity.2
    (.obj [("Label", .str "X"), ("Node", .int 1), ("Summary", .str "s"),
      ("Children", .arr [])])
    (.obj [("label", .str "X"), ("node", .int 1), ("summary", .str "s"),
      ("children", .arr [])])
    (by decide)).2.2.2
